import Mathlib

/-!
Verification of the go-playground repository's core pipeline components.

Each section embeds one Go source unit as pure Lean definitions:
goroutine select loops become oracle-driven recursions (the oracle
resolves each nondeterministic select), stateful code becomes explicit
state passing, channels become FIFO lists, and fatal panics become
`Option`/`Except` failures.
-/

set_option linter.unusedVariables false

namespace Playground

namespace Batcher

/-- Batcher parameters, from batcher (src/unnamed/part_001) type `Params`.
`Interval` is the timer duration; real time is abstracted by the timer
oracle below, so `Interval` does not influence the emitted sequence.
`Prealloc` only controls slice capacity in Go, not content. -/
structure Params where
  Threshold : Nat
  Interval : Nat
  Prealloc : Bool

variable {T : Type}

/-- The body of `batch` from src/unnamed/part_001 lines 53-119
(same loop as src/batcher/batcher.go lines 49-110, which lacks only the
`Threshold <= 1` fast path).

State `slice?`:
* `none`: the outer loop, blocked on `item, ok := <-in` with no timer
  running and no open batch;
* `some slice`: the inner `for running` loop with open batch `slice` and
  the one-shot timer armed.

`oracle`: one `Bool` per inner-loop `select`; `true` means the
`<-t.C` case was chosen (the timer fired first), `false` means the
`<-in` case was chosen.  An exhausted oracle defaults to `false`.
Quantifying over all oracles covers every interleaving of timer firings.

`input` is the remaining content of the `in` channel; the channel is
closed once `input` is exhausted (`ok = false`).

Result: the batches sent on `out` in emission order, paired with whether
`out` was closed on return (the `defer close(out)` guarded by
`shouldClose`). -/
def batchStep (threshold : Nat) (shouldClose : Bool) :
    Option (List T) → List Bool → List T → List (List T) × Bool
  | none, _, [] =>
      -- item, ok := <-in with closed channel: return (defer may close out)
      ([], shouldClose)
  | none, oracle, x :: rest =>
      if threshold ≤ 1 then
        -- params.Threshold <= 1 fast path: emit the singleton, continue
        let r := batchStep threshold shouldClose none oracle rest
        ([x] :: r.1, r.2)
      else
        -- slice := [x]; start the timer; enter the inner loop
        batchStep threshold shouldClose (some [x]) oracle rest
  | some slice, oracle, input =>
      if oracle.headD false then
        -- case <-t.C: running = false, emit slice, back to the outer loop
        let r := batchStep threshold shouldClose none oracle.tail input
        (slice :: r.1, r.2)
      else
        match input with
        | [] =>
            -- case item, ok := <-in with !ok: out <- slice; t.Stop(); return
            ([slice], shouldClose)
        | x :: rest =>
            -- case item, ok := <-in: slice = append(slice, item)
            let slice2 := slice ++ [x]
            if threshold ≤ slice2.length then
              -- len(slice) >= threshold: stop timer, emit, outer loop
              let r := batchStep threshold shouldClose none oracle.tail rest
              (slice2 :: r.1, r.2)
            else
              batchStep threshold shouldClose (some slice2) oracle.tail rest
  termination_by slice? oracle input =>
    (input.length, if slice?.isSome then 1 else 0)
  decreasing_by
    all_goals simp_all [Prod.lex_iff]

/-- `Batch` from src/unnamed/part_001 lines 47-51: runs the loop with
`shouldClose = true`. -/
def Batch (params : Params) (oracle : List Bool) (input : List T) :
    List (List T) × Bool :=
  batchStep params.Threshold true none oracle input

/-- Concatenating everything `batchStep` emits returns the open batch
followed by the remaining input: no item is dropped, duplicated or
reordered. -/
theorem batchStep_join (threshold : Nat) (shouldClose : Bool)
    (slice? : Option (List T)) (oracle : List Bool) (input : List T) :
    (batchStep threshold shouldClose slice? oracle input).1.flatten =
      slice?.getD [] ++ input := by
  induction slice?, oracle, input using
    batchStep.induct threshold shouldClose with
  | case1 oracle => simp [batchStep]
  | case2 oracle x rest h ih =>
      simp [batchStep, h, ih]
  | case3 oracle x rest h ih =>
      simp only [batchStep, if_neg h]
      simpa using ih
  | case4 slice oracle input h ih =>
      cases input with
      | nil =>
          rw [batchStep.eq_3, if_pos h]
          simpa using ih
      | cons y ys =>
          rw [batchStep.eq_4, if_pos h]
          simpa using ih
  | case5 slice oracle h =>
      rw [batchStep.eq_3, if_neg h]
      simp
  | case6 slice oracle h x rest slice2 h2 ih =>
      rw [batchStep.eq_4, if_neg h]
      simp only []
      rw [if_pos (show threshold ≤ (slice ++ [x]).length from h2)]
      simpa using ih
  | case7 slice oracle h x rest slice2 h2 ih =>
      rw [batchStep.eq_4, if_neg h]
      simp only []
      rw [if_neg (show ¬ threshold ≤ (slice ++ [x]).length from h2)]
      refine ih.trans ?_
      simp [slice2]

/-- Every batch `batchStep` emits is non-empty, provided the open batch
(if any) is non-empty; batches are only ever opened with one item in them. -/
theorem batchStep_ne_nil (threshold : Nat) (shouldClose : Bool)
    (slice? : Option (List T)) (oracle : List Bool) (input : List T) :
    (∀ s, slice? = some s → s ≠ []) →
      ∀ b ∈ (batchStep threshold shouldClose slice? oracle input).1, b ≠ [] := by
  induction slice?, oracle, input using
    batchStep.induct threshold shouldClose with
  | case1 oracle => simp [batchStep]
  | case2 oracle x rest h ih =>
      intro hs
      simp only [batchStep, if_pos h]
      intro b hb
      rcases List.mem_cons.mp hb with hb | hb
      · simp [hb]
      · exact ih (by simp) b hb
  | case3 oracle x rest h ih =>
      intro hs
      simp only [batchStep, if_neg h]
      exact ih (by simp)
  | case4 slice oracle input h ih =>
      intro hs
      have hres : ∀ b ∈ (slice ::
          (batchStep threshold shouldClose none oracle.tail input).1), b ≠ [] := by
        intro b hb
        rcases List.mem_cons.mp hb with hb | hb
        · exact hb ▸ hs slice rfl
        · exact ih (by simp) b hb
      cases input with
      | nil => rw [batchStep.eq_3, if_pos h]; exact hres
      | cons y ys => rw [batchStep.eq_4, if_pos h]; exact hres
  | case5 slice oracle h =>
      intro hs
      rw [batchStep.eq_3, if_neg h]
      intro b hb
      simp only [List.mem_singleton] at hb
      exact hb ▸ hs slice rfl
  | case6 slice oracle h x rest slice2 h2 ih =>
      intro hs
      rw [batchStep.eq_4, if_neg h]
      simp only []
      rw [if_pos (show threshold ≤ (slice ++ [x]).length from h2)]
      intro b hb
      rcases List.mem_cons.mp hb with hb | hb
      · simp [hb]
      · exact ih (by simp) b hb
  | case7 slice oracle h x rest slice2 h2 ih =>
      intro hs
      rw [batchStep.eq_4, if_neg h]
      simp only []
      rw [if_neg (show ¬ threshold ≤ (slice ++ [x]).length from h2)]
      exact ih (by simp [slice2])

/-- The second component records exactly whether the `defer close(out)`
registered by `shouldClose` ran; it always runs at return. -/
theorem batchStep_closes (threshold : Nat) (shouldClose : Bool)
    (slice? : Option (List T)) (oracle : List Bool) (input : List T) :
    (batchStep threshold shouldClose slice? oracle input).2 = shouldClose := by
  induction slice?, oracle, input using
    batchStep.induct threshold shouldClose with
  | case1 oracle => simp [batchStep]
  | case2 oracle x rest h ih => simp [batchStep, h, ih]
  | case3 oracle x rest h ih => simp only [batchStep, if_neg h]; exact ih
  | case4 slice oracle input h ih =>
      cases input with
      | nil => rw [batchStep.eq_3, if_pos h]; simpa using ih
      | cons y ys => rw [batchStep.eq_4, if_pos h]; simpa using ih
  | case5 slice oracle h =>
      rw [batchStep.eq_3, if_neg h]
  | case6 slice oracle h x rest slice2 h2 ih =>
      rw [batchStep.eq_4, if_neg h]
      simp only []
      rw [if_pos (show threshold ≤ (slice ++ [x]).length from h2)]
      simpa using ih
  | case7 slice oracle h x rest slice2 h2 ih =>
      rw [batchStep.eq_4, if_neg h]
      simp only []
      rw [if_neg (show ¬ threshold ≤ (slice ++ [x]).length from h2)]
      exact ih

/-- With `threshold ≤ 1` only the fast path runs: every batch is a
singleton. -/
theorem batchStep_fastpath (threshold : Nat) (shouldClose : Bool)
    (oracle : List Bool) (input : List T) (hK : threshold ≤ 1) :
    ∀ b ∈ (batchStep threshold shouldClose none oracle input).1,
      b.length = 1 := by
  induction input with
  | nil => simp [batchStep]
  | cons x rest ih =>
      simp only [batchStep, if_pos hK]
      intro b hb
      rcases List.mem_cons.mp hb with hb | hb
      · simp [hb]
      · exact ih b hb

/-- C1: for every finite input stream fed to the timed batcher with
threshold K ≥ 1, and for every interleaving of timer firings (every
oracle), the concatenation of the emitted batches in emission order
equals the input stream in order, each emitted batch is non-empty, and
after the input channel is closed the partial batch (if any) has been
emitted (it is part of the concatenation) and the output channel is
closed. -/
theorem batch_stream_preserved (params : Params) (hK : 1 ≤ params.Threshold)
    (oracle : List Bool) (input : List T) :
    (Batch params oracle input).1.flatten = input ∧
      (∀ b ∈ (Batch params oracle input).1, b ≠ []) ∧
      (Batch params oracle input).2 = true := by
  refine ⟨?_, ?_, ?_⟩
  · simpa [Batch] using
      batchStep_join params.Threshold true none oracle input
  · exact batchStep_ne_nil params.Threshold true none oracle input (by simp)
  · exact batchStep_closes params.Threshold true none oracle input

/-- Witness for `batch_stream_preserved`: threshold 3, one early timer
firing, input 0..3. -/
theorem batch_stream_preserved_witness :
    1 ≤ (Params.mk 3 5 false).Threshold ∧
      ((Batch (Params.mk 3 5 false) [false, true] [0, 1, 2, 3]).1.flatten
          = [0, 1, 2, 3] ∧
        (∀ b ∈ (Batch (Params.mk 3 5 false) [false, true] [0, 1, 2, 3]).1,
          b ≠ []) ∧
        (Batch (Params.mk 3 5 false) [false, true] [0, 1, 2, 3]).2 = true) :=
  ⟨by decide,
    batch_stream_preserved (Params.mk 3 5 false) (by decide)
      [false, true] [0, 1, 2, 3]⟩

/-- C8 counterexample: the claim says a batcher with `threshold = 0`
(or `interval = 0`) fails fatally at construction, before any item is
processed.  In the source (src/unnamed/part_001 lines 47-68 and
src/batcher/batcher.go lines 42-57) `Batch` performs no validation at
all: with `Threshold = 0` and `Interval = 0` it starts normally,
processes both items of the input `[1, 2]` and emits them as singleton
batches, then closes the output. -/
theorem batch_zero_threshold_runs :
    Batch (Params.mk 0 0 false) [] [1, 2] = ([[1], [2]], true) := by
  simp [Batch, batchStep]

/-- C8 amended: construction performs no parameter validation.  A
batcher with `threshold = 0` (with any interval, including 0) starts
and processes its input normally, behaving exactly like the
`threshold <= 1` singleton fast path: every input item is emitted, in
order, as a batch of size one. -/
theorem batch_no_construction_validation (params : Params)
    (hz : params.Threshold = 0) (oracle : List Bool) (input : List T) :
    (Batch params oracle input).1.flatten = input ∧
      ∀ b ∈ (Batch params oracle input).1, b.length = 1 := by
  refine ⟨?_, ?_⟩
  · simpa [Batch] using
      batchStep_join params.Threshold true none oracle input
  · exact batchStep_fastpath params.Threshold true oracle input (by omega)

/-- Witness for `batch_no_construction_validation`. -/
theorem batch_no_construction_validation_witness :
    (Params.mk 0 0 false).Threshold = 0 ∧
      ((Batch (Params.mk 0 0 false) [] [5, 6, 7]).1.flatten = [5, 6, 7] ∧
        ∀ b ∈ (Batch (Params.mk 0 0 false) [] [5, 6, 7]).1, b.length = 1) :=
  ⟨rfl,
    batch_no_construction_validation (Params.mk 0 0 false) rfl [] [5, 6, 7]⟩

end Batcher

namespace SlidingWindow

/-- `Counter` from src/slidingwindow/counter.go lines 35-41.
The Go map `current : map[T]int` is modelled as a total function
`T → Int`: a key absent from the map reads as 0, and `delete` stores 0
(the code maintains "in the map iff count ≥ 1", so the two agree).
The `evict` callback is not stored; `Observe` returns the value the
callback would be invoked with instead. -/
structure Counter (T : Type) where
  window : List T
  head : Nat
  lifetime : Nat
  current : T → Int

variable {T : Type} [DecidableEq T] [Inhabited T]

/-- `NewCounter` (counter.go lines 57-76): `panic("invalid size")` for
`size < 1` becomes `none`.  `window := make([]T, size)` fills the ring
with the zero value of `T` (`default`).  `cardinalityHint` only sizes
the Go map (a capacity hint), so it has no semantic effect. -/
def NewCounter (size : Nat) (cardinalityHint : Nat) : Option (Counter T) :=
  if size < 1 then none
  else some { window := List.replicate size default
              head := 0
              lifetime := 0
              current := fun _ => 0 }

/-- `Counter.Get` (counter.go lines 116-118): map read, 0 when absent. -/
def Counter.Get (c : Counter T) (value : T) : Int :=
  c.current value

/-- `Counter.Lifetime` (counter.go lines 126-128). -/
def Counter.Lifetime (c : Counter T) : Nat :=
  c.lifetime

/-- `Counter.Observe` (counter.go lines 131-161).  Returns `none` for the
`panic("evictee count was 0")` branch; otherwise returns the updated
counter together with the value passed to the eviction callback, if the
eviction fired on this observation. -/
def Counter.Observe (c : Counter T) (value : T) :
    Option (Counter T × Option T) :=
  let size := c.window.length
  let evictStep : Option ((T → Int) × Option T) :=
    if size ≤ c.lifetime then
      let evictee := c.window.getD c.head default
      let updatedCount := c.current evictee - 1
      if 0 < updatedCount then
        some (Function.update c.current evictee updatedCount, none)
      else if updatedCount = 0 then
        -- delete(c.current, evictee); c.evict(evictee)
        some (Function.update c.current evictee 0, some evictee)
      else
        -- panic("evictee count was 0")
        none
    else
      some (c.current, none)
  match evictStep with
  | none => none
  | some (cur1, evicted) =>
      some ({ window := c.window.set c.head value
              lifetime := c.lifetime + 1
              head := if size ≤ c.head + 1 then 0 else c.head + 1
              current := Function.update cur1 value (cur1 value + 1) },
            evicted)

/-- A fresh counter of the given size fed the observation list `obs`,
one `Observe` per element, keeping only the counter. -/
def observeAll (size : Nat) (obs : List T) : Option (Counter T) :=
  (NewCounter size 0).bind fun c0 =>
    obs.foldlM (fun c x => (Counter.Observe c x).map Prod.fst) c0

/-- The last `min obs.length size` observations, oldest first: the live
content of the ring. -/
def recent (size : Nat) (obs : List T) : List T :=
  obs.drop (obs.length - size)

/-- The state invariant tying a counter to the observations that
produced it: the lifetime and ring head match, each live ring slot
holds the observation that last wrote it, and the map holds exactly the
occurrence counts of the last `min obs.length size` observations. -/
def CounterInv (c : Counter T) (size : Nat) (obs : List T) : Prop :=
  c.window.length = size ∧
  c.lifetime = obs.length ∧
  c.head = obs.length % size ∧
  (∀ t, t < obs.length → obs.length ≤ t + size →
    c.window.getD (t % size) default = obs.getD t default) ∧
  (∀ v, c.current v = ((recent size obs).count v : Int))

theorem succ_mod_eq (m size : Nat) (hS : 0 < size) :
    (m + 1) % size = if size ≤ m % size + 1 then 0 else m % size + 1 := by
  have hr : m % size < size := Nat.mod_lt _ hS
  rcases Nat.lt_or_ge (m % size + 1) size with h | h
  · rw [if_neg (by omega)]
    conv_lhs => rw [← Nat.mod_add_div m size]
    rw [Nat.add_right_comm, Nat.add_mul_mod_self_left]
    exact Nat.mod_eq_of_lt h
  · rw [if_pos (by omega)]
    have hs : m % size + 1 = size := by omega
    conv_lhs => rw [← Nat.mod_add_div m size]
    rw [Nat.add_right_comm, Nat.add_mul_mod_self_left, hs, Nat.mod_self]

theorem mod_ne_of_between (a b size : Nat) (h1 : a < b) (h2 : b < a + size) :
    b % size ≠ a % size := by
  intro heq
  have hd : size ∣ b - a := (Nat.modEq_iff_dvd' h1.le).mp heq.symm
  have hlt : size ≤ b - a := Nat.le_of_dvd (by omega) hd
  omega

theorem getD_set_self {α : Type} (l : List α) (i : Nat) (a d : α)
    (h : i < l.length) : (l.set i a).getD i d = a := by
  rw [List.getD_eq_getElem _ _ (by simpa using h)]
  simp [List.getElem_set_self]

theorem getD_set_ne {α : Type} (l : List α) (i j : Nat) (a d : α)
    (hne : i ≠ j) (hj : j < l.length) :
    (l.set i a).getD j d = l.getD j d := by
  rw [List.getD_eq_getElem _ _ (by simpa using hj),
    List.getD_eq_getElem _ _ hj]
  exact List.getElem_set_ne (by simpa using hne) (by simpa using hj)

theorem getD_append_left {α : Type} (l : List α) (x d : α) (t : Nat)
    (h : t < l.length) : (l ++ [x]).getD t d = l.getD t d := by
  rw [List.getD_eq_getElem _ _ (by simp; omega), List.getD_eq_getElem _ _ h]
  exact List.getElem_append_left h

theorem getD_append_last {α : Type} (l : List α) (x d : α) :
    (l ++ [x]).getD l.length d = x := by
  rw [List.getD_eq_getElem _ _ (by simp)]
  simp

/-- One `Observe` preserves the counter invariant: it never panics, and
it produces the state of the extended observation list. -/
theorem Counter.Observe_inv (c : Counter T) (size : Nat) (obs : List T)
    (x : T) (hS : 0 < size) (hinv : CounterInv c size obs) :
    ∃ c' ev, Counter.Observe c x = some (c', ev) ∧
      CounterInv c' size (obs ++ [x]) := by
  obtain ⟨hlen, hlife, hhead, hwin, hcur⟩ := hinv
  have hheadlt : c.head < size := by
    rw [hhead]; exact Nat.mod_lt _ hS
  by_cases hm : obs.length < size
  · -- lifetime < size: no eviction happens
    have hcond : ¬ (c.window.length ≤ c.lifetime) := by omega
    refine ⟨{ window := c.window.set c.head x
              head := if c.window.length ≤ c.head + 1 then 0 else c.head + 1
              lifetime := c.lifetime + 1
              current := Function.update c.current x (c.current x + 1) },
            none, ?_, ?_, ?_, ?_, ?_, ?_⟩
    · simp only [Counter.Observe]
      rw [if_neg hcond]
    · simpa using hlen
    · simpa using hlife
    · -- head is the new length mod size
      show (if c.window.length ≤ c.head + 1 then 0 else c.head + 1)
        = (obs ++ [x]).length % size
      have hl : (obs ++ [x]).length = obs.length + 1 := by simp
      rw [hl, succ_mod_eq _ _ hS, hlen, hhead]
    · -- ring readback
      intro t ht hts
      simp only [List.length_append, List.length_singleton] at ht hts
      show (c.window.set c.head x).getD (t % size) default
        = (obs ++ [x]).getD t default
      rcases Nat.lt_or_ge t obs.length with htm | htm
      · have hne : c.head ≠ t % size := by
          rw [hhead]
          exact mod_ne_of_between t obs.length size htm (by omega)
        rw [getD_set_ne _ _ _ _ _ hne (by rw [hlen]; exact Nat.mod_lt _ hS),
          getD_append_left _ _ _ _ htm]
        exact hwin t htm (by omega)
      · have htm' : t = obs.length := by omega
        subst htm'
        rw [← hhead, getD_set_self _ _ _ _ (by omega), getD_append_last]
    · -- counts
      intro v
      have hrec : recent size (obs ++ [x]) = obs ++ [x] := by
        unfold recent
        simp only [List.length_append, List.length_singleton]
        rw [Nat.sub_eq_zero_of_le (by omega), List.drop_zero]
      have hrec0 : recent size obs = obs := by
        unfold recent
        rw [Nat.sub_eq_zero_of_le (by omega), List.drop_zero]
      rw [hrec]
      rw [hrec0] at hcur
      by_cases hvx : v = x
      · subst hvx
        simp [Function.update_apply, hcur v, List.count_append]
      · simp [Function.update_apply, hvx, hcur v, List.count_append,
          List.count_singleton, Ne.symm hvx]
  · -- lifetime ≥ size: the slot at head is evicted first
    have hcond : c.window.length ≤ c.lifetime := by omega
    have hms : size ≤ obs.length := by omega
    have hts : obs.length - size < obs.length := by omega
    -- the evictee is the observation from `size` steps ago
    have hev : c.window.getD c.head default
        = obs.getD (obs.length - size) default := by
      have : (obs.length - size) % size = obs.length % size := by
        conv_rhs => rw [show obs.length = (obs.length - size) + 1 * size by omega]
        rw [Nat.add_mul_mod_self_right]
      rw [hhead, ← this]
      exact hwin _ hts (by omega)
    set evictee := c.window.getD c.head default with hevdef
    set tail0 := obs.drop (obs.length - size + 1) with htail0
    have hdrop : obs.drop (obs.length - size) = evictee :: tail0 := by
      rw [hev]
      rw [List.getD_eq_getElem _ _ hts]
      exact List.drop_eq_getElem_cons hts
    have hrec0 : recent size obs = evictee :: tail0 := by
      unfold recent; exact hdrop
    have hcev : c.current evictee = (tail0.count evictee : Int) + 1 := by
      rw [hcur evictee, hrec0]
      simp [List.count_cons_self]
    -- the two non-panicking branches both store count(tail0, evictee)
    have hstep : ∃ ev, Counter.Observe c x =
        some ({ window := c.window.set c.head x
                head := if c.window.length ≤ c.head + 1 then 0
                        else c.head + 1
                lifetime := c.lifetime + 1
                current :=
                  Function.update
                    (Function.update c.current evictee
                      (tail0.count evictee : Int)) x
                    (Function.update c.current evictee
                      (tail0.count evictee : Int) x + 1) }, ev) := by
      by_cases hpos : 0 < (tail0.count evictee : Int)
      · refine ⟨none, ?_⟩
        simp only [Counter.Observe]
        rw [if_pos hcond, ← hevdef]
        rw [hcev]
        rw [if_pos (by omega : (0:Int) < (tail0.count evictee : Int) + 1 - 1)]
        have : (tail0.count evictee : Int) + 1 - 1
            = (tail0.count evictee : Int) := by ring
        rw [this]
      · refine ⟨some evictee, ?_⟩
        have hzero : (tail0.count evictee : Int) = 0 := by
          omega
        simp only [Counter.Observe]
        rw [if_pos hcond, ← hevdef]
        rw [hcev, hzero]
        norm_num
    obtain ⟨ev, hstep⟩ := hstep
    refine ⟨_, ev, hstep, ?_, ?_, ?_, ?_, ?_⟩
    · simpa using hlen
    · simpa using hlife
    · show (if c.window.length ≤ c.head + 1 then 0 else c.head + 1)
        = (obs ++ [x]).length % size
      have hl : (obs ++ [x]).length = obs.length + 1 := by simp
      rw [hl, succ_mod_eq _ _ hS, hlen, hhead]
    · -- ring readback
      intro t ht hts2
      simp only [List.length_append, List.length_singleton] at ht hts2
      show (c.window.set c.head x).getD (t % size) default
        = (obs ++ [x]).getD t default
      rcases Nat.lt_or_ge t obs.length with htm | htm
      · have hne : c.head ≠ t % size := by
          rw [hhead]
          exact mod_ne_of_between t obs.length size htm (by omega)
        rw [getD_set_ne _ _ _ _ _ hne (by rw [hlen]; exact Nat.mod_lt _ hS),
          getD_append_left _ _ _ _ htm]
        exact hwin t htm (by omega)
      · have htm' : t = obs.length := by omega
        subst htm'
        rw [← hhead, getD_set_self _ _ _ _ (by omega), getD_append_last]
    · -- counts
      intro v
      have hrec : recent size (obs ++ [x]) = tail0 ++ [x] := by
        unfold recent
        simp only [List.length_append, List.length_singleton]
        rw [show obs.length + 1 - size = (obs.length - size) + 1 by omega]
        rw [List.drop_append_of_le_length (by omega), htail0]
      have hc2 : ∀ w, w ≠ evictee → c.current w = (tail0.count w : Int) := by
        intro w hw
        rw [hcur w, hrec0, List.count_cons_of_ne hw]
      rw [hrec]
      simp only [Function.update_apply]
      rw [List.count_append]
      by_cases hvx : v = x
      · subst hvx
        rw [if_pos rfl]
        by_cases hve : v = evictee
        · rw [if_pos hve]
          have h1 : [v].count v = 1 := by simp
          rw [h1, ← hve]
          push_cast
          ring
        · rw [if_neg hve, hc2 _ hve]
          have h1 : [v].count v = 1 := by simp
          rw [h1]
          push_cast
          ring
      · by_cases hve : v = evictee
        · rw [if_neg hvx, if_pos hve]
          have h0 : ([x].count v) = 0 := by
            simp [List.count_singleton, hvx]
          rw [h0, hve]
          push_cast
          ring
        · rw [if_neg hvx, if_neg hve, hc2 _ hve]
          have h0 : ([x].count v) = 0 := by
            simp [List.count_singleton, hvx]
          rw [h0]
          push_cast
          ring

/-- Folding `Observe` over any observation list from a fresh counter
never hits the panic branch and establishes the invariant. -/
theorem observeAll_inv (size : Nat) (hS : 0 < size) (obs : List T) :
    ∃ c, observeAll size obs = some c ∧ CounterInv c size obs := by
  suffices h : ∀ (rest pre : List T) (c : Counter T), CounterInv c size pre →
      ∃ c', rest.foldlM (fun c x => (Counter.Observe c x).map Prod.fst) c
          = some c' ∧ CounterInv c' size (pre ++ rest) by
    have h0 : CounterInv
        ({ window := List.replicate size default, head := 0, lifetime := 0,
           current := fun _ => 0 } : Counter T) size [] := by
      refine ⟨by simp, rfl, by simp, by simp, ?_⟩
      intro v
      simp [recent]
    obtain ⟨c', h1, h2⟩ := h obs [] _ h0
    refine ⟨c', ?_, by simpa using h2⟩
    rw [observeAll, NewCounter, if_neg (by omega)]
    simpa using h1
  intro rest
  induction rest with
  | nil =>
      intro pre c hc
      exact ⟨c, rfl, by simpa using hc⟩
  | cons x rs ih =>
      intro pre c hc
      obtain ⟨c', ev, hobs, hinv'⟩ := Counter.Observe_inv c size pre x hS hc
      obtain ⟨c'', h1, h2⟩ := ih (pre ++ [x]) c' hinv'
      refine ⟨c'', ?_, by simpa using h2⟩
      rw [List.foldlM_cons, hobs]
      simpa using h1

/-- C4: for the sliding-window counter of size S ≥ 1, after any sequence
of m `Observe` calls (none of which panics), `Get v` equals the number
of occurrences of `v` among the last `min m S` observed values, the sum
of all counts over the window's values equals `min m S`, and `Get`
returns 0 for any value absent from the window. -/
theorem counter_counts (size : Nat) (hS : 1 ≤ size) (obs : List T) :
    ∃ c, observeAll size obs = some c ∧
      (∀ v, c.Get v = ((recent size obs).count v : Int)) ∧
      Finset.sum (recent size obs).toFinset (fun v => c.Get v)
        = ((min obs.length size : Nat) : Int) ∧
      (∀ v, v ∉ recent size obs → c.Get v = 0) := by
  obtain ⟨c, hrun, hinv⟩ := observeAll_inv size hS obs
  have hcur : ∀ v, c.Get v = ((recent size obs).count v : Int) :=
    fun v => hinv.2.2.2.2 v
  refine ⟨c, hrun, hcur, ?_, ?_⟩
  · have hlen : (recent size obs).length = min obs.length size := by
      unfold recent
      simp only [List.length_drop]
      omega
    have hsum : (Finset.sum (recent size obs).toFinset
        fun v => (recent size obs).count v) = (recent size obs).length := by
      have := Multiset.toFinset_sum_count_eq ((recent size obs : List T) : Multiset T)
      simpa using this
    calc Finset.sum (recent size obs).toFinset (fun v => c.Get v)
        = Finset.sum (recent size obs).toFinset
            (fun v => ((recent size obs).count v : Int)) :=
          Finset.sum_congr rfl (fun v _ => hcur v)
      _ = ((Finset.sum (recent size obs).toFinset
            fun v => (recent size obs).count v : Nat) : Int) := by
          push_cast
          rfl
      _ = ((min obs.length size : Nat) : Int) := by
          rw [hsum, hlen]
  · intro v hv
    rw [hcur v]
    simp [List.count_eq_zero_of_not_mem hv]

/-- Witness for `counter_counts`: size 2, observations [1, 2, 1]. -/
theorem counter_counts_witness :
    1 ≤ 2 ∧
      ∃ c, observeAll (T := Nat) 2 [1, 2, 1] = some c ∧
        (∀ v, c.Get v = ((recent 2 [1, 2, 1]).count v : Int)) ∧
        Finset.sum (recent 2 [1, 2, 1]).toFinset (fun v => c.Get v)
          = ((min ([1, 2, 1] : List Nat).length 2 : Nat) : Int) ∧
        (∀ v, v ∉ recent 2 [1, 2, 1] → c.Get v = 0) :=
  ⟨by decide, counter_counts 2 (by decide) [1, 2, 1]⟩

/-! Aliasing model for `Counter.GetAll` (counter.go lines 120-123).
Go maps are references into a heap; `maps.Clone` allocates a fresh map
with the same entries.  `MapHeap` is that heap: a list of map values,
indexed by reference. -/

/-- The heap of live Go `map[T]int` values.  A map reference is an index
into `maps`; the counter's own `current` map lives at some reference. -/
structure MapHeap (T : Type) where
  maps : List (T → Int)

/-- Reading key `k` of the map at reference `r` (absent keys read 0). -/
def readMap (h : MapHeap T) (r : Nat) (k : T) : Int :=
  (h.maps.getD r (fun _ => 0)) k

/-- Storing `v` at key `k` of the map at reference `r`: the caller
mutating a map in place. -/
def writeMap (h : MapHeap T) (r : Nat) (k : T) (v : Int) : MapHeap T :=
  { maps := h.maps.set r (Function.update (h.maps.getD r (fun _ => 0)) k v) }

/-- `Counter.GetAll` (counter.go lines 121-123): `maps.Clone(c.current)`
allocates a fresh map holding the same entries as the map at `ref` (the
counter's `current` map) and returns the new reference. -/
def Counter.GetAllClone (h : MapHeap T) (ref : Nat) : MapHeap T × Nat :=
  ({ maps := h.maps ++ [h.maps.getD ref (fun _ => 0)] }, h.maps.length)

/-- C10: `Counter.GetAll` returns an independent copy of the internal
value-to-count map.  The returned reference is distinct from the
counter's own map reference, it holds the same entries, and any
in-place mutation of the returned map leaves the contents of the
counter's map — hence all subsequent `Get`, `GetAll` and `Observe`
results, which only read `current` through that reference — unchanged. -/
theorem getAll_returns_independent_copy (h : MapHeap T) (ref : Nat)
    (href : ref < h.maps.length) :
    (Counter.GetAllClone h ref).2 ≠ ref ∧
      (∀ k, readMap (Counter.GetAllClone h ref).1
        (Counter.GetAllClone h ref).2 k = readMap h ref k) ∧
      (∀ k v k2, readMap
          (writeMap (Counter.GetAllClone h ref).1
            (Counter.GetAllClone h ref).2 k v) ref k2
        = readMap h ref k2) := by
  refine ⟨by simpa using Nat.ne_of_gt href, ?_, ?_⟩
  · intro k
    show ((h.maps ++ [h.maps.getD ref (fun _ => 0)]).getD h.maps.length
      (fun _ => 0)) k = _
    rw [getD_append_last]
    rfl
  · intro k v k2
    show (((h.maps ++ [h.maps.getD ref (fun _ => 0)]).set h.maps.length
        (Function.update ((h.maps ++ [h.maps.getD ref (fun _ => 0)]).getD
          h.maps.length (fun _ => 0)) k v)).getD ref (fun _ => 0)) k2 = _
    rw [getD_set_ne _ _ _ _ _ (Nat.ne_of_gt href) (by simp; omega),
      getD_append_left _ _ _ _ href]
    rfl

/-- Witness for `getAll_returns_independent_copy`: a one-map heap. -/
theorem getAll_returns_independent_copy_witness :
    (Counter.GetAllClone (MapHeap.mk (T := Nat) [fun _ => (0 : Int)]) 0).2
        ≠ 0 ∧
      (∀ k, readMap (Counter.GetAllClone
          (MapHeap.mk (T := Nat) [fun _ => (0 : Int)]) 0).1
        (Counter.GetAllClone
          (MapHeap.mk (T := Nat) [fun _ => (0 : Int)]) 0).2 k
        = readMap (MapHeap.mk (T := Nat) [fun _ => (0 : Int)]) 0 k) ∧
      (∀ k v k2, readMap
          (writeMap (Counter.GetAllClone
              (MapHeap.mk (T := Nat) [fun _ => (0 : Int)]) 0).1
            (Counter.GetAllClone
              (MapHeap.mk (T := Nat) [fun _ => (0 : Int)]) 0).2 k v)
          0 k2
        = readMap (MapHeap.mk (T := Nat) [fun _ => (0 : Int)]) 0 k2) :=
  getAll_returns_independent_copy
    (MapHeap.mk (T := Nat) [fun _ => (0 : Int)]) 0 (by decide)

end SlidingWindow

namespace Doneq

/-!
Operational model of the done-queue, src/unnamed/part_019 (`Done`,
`New`, `Start`, `watch`, `ShutdownWait`) and src/unnamed/part_015
(`Task`, `Done`).

`New` creates the channel `d.c` with capacity `max - 1` ("cap is max-1
as one task can be waiting in watch while the rest are in this
channel") and starts the single `watch` goroutine.  Tickets are
identified by their admission index; the progress value of ticket `i`
is `admittedLog[i]`.  `Task.doing` is a mutex locked by `Start` and
unlocked by `Task.Done`; `watch` blocks re-locking it, which is the
`doneSet` precondition of the `mark` transition below.  The sync.Pool
recycling only reuses memory and is not part of the state.
-/

structure DoneState (T : Type) where
  /-- Progress values of admitted tickets (successful `Start` returns),
  in admission order. -/
  admittedLog : List T
  /-- Ticket ids sitting in the channel `d.c`, FIFO order. -/
  pending : List Nat
  /-- The ticket the `watch` goroutine has received and not yet marked
  (it is blocked in `t.doing.Lock()` or about to call `mark`);
  `none` means `watch` is blocked at `for t := range d.c`. -/
  holding : Option Nat
  /-- Ids of tickets whose `Task.Done` has been called. -/
  doneSet : List Nat
  /-- Arguments passed to the `mark` callback, in call order. -/
  markedLog : List T

variable {T : Type} [Inhabited T]

def DoneState.init (T : Type) : DoneState T :=
  { admittedLog := [], pending := [], holding := none,
    doneSet := [], markedLog := [] }

/-- One atomic step of the done-queue system: an admission by a
producer (`Start`'s `d.c <- t`, either into channel buffer space or by
direct hand-off to a blocked receiver, per Go channel semantics), the
`watch` goroutine receiving a ticket, a worker calling `Task.Done`, or
`watch` completing `t.doing.Lock(); d.mark(t.progress)`. -/
inductive DStep (max : Nat) : DoneState T → DoneState T → Prop where
  | startBuffer (s : DoneState T) (x : T)
      (hroom : s.pending.length < max - 1) :
      DStep max s { s with admittedLog := s.admittedLog ++ [x],
                           pending := s.pending ++ [s.admittedLog.length] }
  | startHandoff (s : DoneState T) (x : T)
      (hp : s.pending = []) (hh : s.holding = none) :
      DStep max s { s with admittedLog := s.admittedLog ++ [x],
                           holding := some s.admittedLog.length }
  | receive (s : DoneState T) (i : Nat) (rest : List Nat)
      (hp : s.pending = i :: rest) (hh : s.holding = none) :
      DStep max s { s with pending := rest, holding := some i }
  | callDone (s : DoneState T) (i : Nat)
      (hi : i < s.admittedLog.length) (hnd : i ∉ s.doneSet) :
      DStep max s { s with doneSet := i :: s.doneSet }
  | mark (s : DoneState T) (i : Nat)
      (hh : s.holding = some i) (hd : i ∈ s.doneSet) :
      DStep max s { s with holding := none,
                           markedLog := s.markedLog ++
                             [s.admittedLog.getD i default] }

/-- States reachable from the fresh queue. -/
def Reachable (max : Nat) (s : DoneState T) : Prop :=
  Relation.ReflTransGen (DStep max) (DoneState.init T) s

/-- Number of admitted-but-unmarked tickets. -/
def unmarked (s : DoneState T) : Nat :=
  s.admittedLog.length - s.markedLog.length

/-- Whether `Start`'s send could complete in this state (otherwise
`Start` blocks, or returns the context error without admission). -/
def startEnabled (max : Nat) (s : DoneState T) : Prop :=
  s.pending.length < max - 1 ∨ (s.pending = [] ∧ s.holding = none)

/-- The inductive invariant: the channel respects its capacity, the
marked log is the admitted prefix, `watch` holds the oldest unmarked
ticket, and the channel holds the following ids consecutively. -/
def DoneInv (max : Nat) (s : DoneState T) : Prop :=
  s.pending.length ≤ max - 1 ∧
  s.markedLog = s.admittedLog.take s.markedLog.length ∧
  (∀ i, s.holding = some i → i = s.markedLog.length) ∧
  ∃ k, s.pending = List.range'
        (s.markedLog.length + (if s.holding.isSome then 1 else 0)) k ∧
      s.admittedLog.length = s.markedLog.length
        + (if s.holding.isSome then 1 else 0) + k

theorem DoneInv.init (max : Nat) : DoneInv max (DoneState.init T) := by
  refine ⟨by simp [DoneState.init], by simp [DoneState.init], ?_,
    0, by simp [DoneState.init], by simp [DoneState.init]⟩
  intro i h
  simp [DoneState.init] at h

theorem DStep.preserves_inv {max : Nat} {s s' : DoneState T}
    (hstep : DStep max s s') (hinv : DoneInv max s) : DoneInv max s' := by
  obtain ⟨hcap, hpref, hhold, k, hp, hcount⟩ := hinv
  have hplen : s.pending.length = k := by rw [hp]; simp
  cases hstep with
  | startBuffer x hroom =>
      refine ⟨by simp; omega, ?_, ?_, k + 1, ?_, by simp; omega⟩
      · show s.markedLog = (s.admittedLog ++ [x]).take s.markedLog.length
        rw [List.take_append_of_le_length (by omega)]
        exact hpref
      · intro i h
        exact hhold i h
      · show s.pending ++ [s.admittedLog.length] = _
        rw [hp, hcount]
        have : s.markedLog.length + (if s.holding.isSome then 1 else 0) + k
            = (s.markedLog.length + (if s.holding.isSome then 1 else 0))
              + 1 * k := by ring
        rw [this]
        exact (List.range'_concat _ k).symm
  | startHandoff x hp0 hh =>
      have hk0 : k = 0 := by
        rw [hp0] at hplen
        simpa using hplen.symm
      subst hk0
      simp only [hh, Option.isSome_none] at hcount
      refine ⟨by simpa [hp0] using hcap, ?_, ?_, 0, by simp [hp0], ?_⟩
      · show s.markedLog = (s.admittedLog ++ [x]).take s.markedLog.length
        rw [List.take_append_of_le_length (by omega)]
        exact hpref
      · intro i h
        simp only [Option.some.injEq] at h
        show i = s.markedLog.length
        simp at hcount
        omega
      · show (s.admittedLog ++ [x]).length = s.markedLog.length + 1 + 0
        simp at hcount ⊢
        omega
  | receive i rest hpend hh =>
      simp [hh] at hp hcount
      rcases k with _ | k'
      · rw [hpend] at hp
        simp at hp
      · rw [hpend, List.range'_succ] at hp
        simp only [List.cons.injEq] at hp
        obtain ⟨hi, hrest⟩ := hp
        refine ⟨?_, by simpa using hpref, ?_, k', ?_, ?_⟩
        · show rest.length ≤ max - 1
          rw [hpend] at hcap
          simp at hcap
          omega
        · intro j h
          simp only [Option.some.injEq] at h
          show j = s.markedLog.length
          omega
        · show rest = List.range' (s.markedLog.length + 1) k'
          rw [hrest]
        · show s.admittedLog.length = s.markedLog.length + 1 + k'
          omega
  | callDone i hi hnd =>
      exact ⟨hcap, hpref, hhold, k, hp, hcount⟩
  | mark i hh hd =>
      have hi : i = s.markedLog.length := hhold i hh
      simp [hh] at hcount hp
      have hlt : s.markedLog.length < s.admittedLog.length := by omega
      refine ⟨hcap, ?_, ?_, k, ?_, ?_⟩
      · show s.markedLog ++ [s.admittedLog.getD i default]
          = s.admittedLog.take (s.markedLog
              ++ [s.admittedLog.getD i default]).length
        simp only [List.length_append, List.length_singleton]
        rw [List.take_succ, ← hpref, List.getElem?_eq_getElem hlt]
        rw [hi, List.getD_eq_getElem _ _ hlt]
        simp
      · intro j h
        simp at h
      · simp only [List.length_append, List.length_singleton]
        show s.pending = List.range' (s.markedLog.length + 1) k
        exact hp
      · simp only [List.length_append, List.length_singleton]
        show s.admittedLog.length = s.markedLog.length + 1 + k
        omega

theorem reachable_inv {max : Nat} {s : DoneState T}
    (h : Reachable max s) : DoneInv max s := by
  induction h with
  | refl => exact DoneInv.init max
  | tail _ hstep ih => exact hstep.preserves_inv ih

/-- Once `Task.Done` has been called on every admitted ticket, the
`watch` goroutine can always drain the queue: receive/mark steps lead
to a state where every admitted progress value has been passed to
`mark`, in admission order. -/
theorem drain {max : Nat} {s : DoneState T} (hinv : DoneInv max s)
    (hdone : ∀ i, i < s.admittedLog.length → i ∈ s.doneSet) :
    ∃ s', Relation.ReflTransGen (DStep max) s s' ∧
      s'.admittedLog = s.admittedLog ∧ s'.markedLog = s.admittedLog := by
  suffices H : ∀ n (s : DoneState T),
      2 * (s.admittedLog.length - s.markedLog.length)
        - (if s.holding.isSome then 1 else 0) = n →
      DoneInv max s → (∀ i, i < s.admittedLog.length → i ∈ s.doneSet) →
      ∃ s', Relation.ReflTransGen (DStep max) s s' ∧
        s'.admittedLog = s.admittedLog ∧ s'.markedLog = s.admittedLog by
    exact H _ s rfl hinv hdone
  intro n
  induction n using Nat.strong_induction_on with
  | _ n ih =>
    intro s hm hinv hdone
    have hinv2 := hinv
    obtain ⟨hcap, hpref, hhold, k, hp, hcount⟩ := hinv2
    have hplen : s.pending.length = k := by rw [hp]; simp
    cases hh : s.holding with
    | some i =>
        have hi : i = s.markedLog.length := hhold i hh
        have hc1 : s.admittedLog.length = s.markedLog.length + 1 + k := by
          rw [hh] at hcount
          simpa using hcount
        have hm1 : 2 * (s.admittedLog.length - s.markedLog.length) - 1
            = n := by
          rw [hh] at hm
          simpa using hm
        have hlt : i < s.admittedLog.length := by omega
        have hstep : DStep max s _ := DStep.mark s i hh (hdone i hlt)
        obtain ⟨s', hsteps, ha, hmk⟩ := ih
          (2 * (s.admittedLog.length - (s.markedLog.length + 1)))
          (by omega)
          _ (by simp) (hstep.preserves_inv hinv)
          (by
            intro j hj
            simp at hj
            exact hdone j hj)
        exact ⟨s', Relation.ReflTransGen.head hstep hsteps,
          by simpa using ha, by simpa using hmk⟩
    | none =>
        have hc1 : s.admittedLog.length = s.markedLog.length + k := by
          rw [hh] at hcount
          simpa using hcount
        have hm1 : 2 * (s.admittedLog.length - s.markedLog.length) = n := by
          rw [hh] at hm
          simpa using hm
        cases hpend : s.pending with
        | nil =>
            have hk0 : k = 0 := by rw [hpend] at hplen; simpa using hplen.symm
            refine ⟨s, Relation.ReflTransGen.refl, rfl, ?_⟩
            have hlen : s.markedLog.length = s.admittedLog.length := by omega
            rw [hpref, hlen, List.take_length]
        | cons i rest =>
            have hkpos : 1 ≤ k := by
              rw [hpend] at hplen
              simp at hplen
              omega
            have hstep : DStep max s _ := DStep.receive s i rest hpend hh
            obtain ⟨s', hsteps, ha, hmk⟩ := ih
              (2 * (s.admittedLog.length - s.markedLog.length) - 1)
              (by omega)
              _ (by simp) (hstep.preserves_inv hinv)
              (by
                intro j hj
                simp at hj
                exact hdone j hj)
            exact ⟨s', Relation.ReflTransGen.head hstep hsteps,
              by simpa using ha, by simpa using hmk⟩

/-- C2: in every reachable state of the done-queue, the sequence of
progress values passed to `mark` is exactly the admission-order prefix
of the admitted progress values (so marks happen in admission order and
no ticket is marked twice); and once every admitted ticket's `Done` has
been called, the queue drains to a state where `mark` has been invoked
exactly once per admitted ticket, with the full admission-order
sequence. -/
theorem mark_follows_admission_order {max : Nat} {s : DoneState T}
    (hs : Reachable max s) :
    s.markedLog = s.admittedLog.take s.markedLog.length ∧
      ((∀ i, i < s.admittedLog.length → i ∈ s.doneSet) →
        ∃ s', Relation.ReflTransGen (DStep max) s s' ∧
          s'.admittedLog = s.admittedLog ∧
          s'.markedLog = s.admittedLog) :=
  ⟨(reachable_inv hs).2.1, fun hdone => drain (reachable_inv hs) hdone⟩

/-- Witness for `mark_follows_admission_order`: `max = 2`, one ticket
admitted and completed. -/
theorem mark_follows_admission_order_witness :
    (DoneState.mk (T := Nat) [10] [0] none [0] []).markedLog
        = (DoneState.mk (T := Nat) [10] [0] none [0] []).admittedLog.take
            (DoneState.mk (T := Nat) [10] [0] none [0] []).markedLog.length ∧
      ((∀ i, i < (DoneState.mk (T := Nat) [10] [0] none [0] []).admittedLog.length
          → i ∈ (DoneState.mk (T := Nat) [10] [0] none [0] []).doneSet) →
        ∃ s', Relation.ReflTransGen (DStep 2)
            (DoneState.mk (T := Nat) [10] [0] none [0] []) s' ∧
          s'.admittedLog = (DoneState.mk (T := Nat) [10] [0] none [0] []).admittedLog ∧
          s'.markedLog = (DoneState.mk (T := Nat) [10] [0] none [0] []).admittedLog) :=
  mark_follows_admission_order
    (Relation.ReflTransGen.tail
      (Relation.ReflTransGen.single
        (DStep.startBuffer (DoneState.init Nat) 10 (by decide)))
      (DStep.callDone (DoneState.mk [10] [0] none [] []) 0
        (by decide) (by decide)))

/-- C6: in every reachable state of a done-queue with bound `max ≥ 1`,
the number of admitted-but-unmarked tickets is at most `max`; and when
it equals `max`, the channel send in `Start` is not enabled, so `Start`
blocks rather than admitting a ticket that would exceed the bound. -/
theorem admitted_unmarked_bounded {max : Nat} (hmax : 1 ≤ max)
    {s : DoneState T} (hs : Reachable max s) :
    unmarked s ≤ max ∧ (unmarked s = max → ¬ startEnabled max s) := by
  obtain ⟨hcap, hpref, hhold, k, hp, hcount⟩ := reachable_inv hs
  have hplen : s.pending.length = k := by rw [hp]; simp
  unfold unmarked startEnabled
  cases hh : s.holding with
  | some i =>
      rw [hh] at hcount
      simp at hcount
      constructor
      · omega
      · intro hfull hstart
        rcases hstart with hroom | ⟨hnil, hnone⟩
        · omega
        · simp at hnone
  | none =>
      rw [hh] at hcount
      simp at hcount
      constructor
      · omega
      · intro hfull hstart
        rcases hstart with hroom | ⟨hnil, hnone⟩
        · omega
        · rw [hnil] at hplen
          simp at hplen
          omega

/-- Witness for `admitted_unmarked_bounded`: `max = 1`, one direct
hand-off admission; the queue is full and `Start` is blocked. -/
theorem admitted_unmarked_bounded_witness :
    unmarked (DoneState.mk (T := Nat) [7] [] (some 0) [] []) ≤ 1 ∧
      (unmarked (DoneState.mk (T := Nat) [7] [] (some 0) [] []) = 1 →
        ¬ startEnabled 1 (DoneState.mk (T := Nat) [7] [] (some 0) [] [])) :=
  admitted_unmarked_bounded (by decide)
    (Relation.ReflTransGen.single
      (DStep.startHandoff (DoneState.init Nat) 7 rfl rfl))

end Doneq

namespace Chops

/-- Result of a complete run of `CoIterate` and its producer goroutine
(src/chops/iterator.go).  `emitted` is what was sent on the items
channel in order, `itemsClosed` whether `close(out)` ran, and
`producerStarted` whether the producer goroutine was launched at all. -/
structure CoIterRun (T : Type) where
  emitted : List T
  itemsClosed : Bool
  producerStarted : Bool

variable {T : Type}

/-- `CoIterate` from src/chops/iterator.go lines 85-110.

The pull iterator argument is the sequence of items its `Next`/`Item`
pair would yield; a Go nil interface value is `none`.  For a nil
iterator the code closes `out` immediately and returns without starting
the goroutine (lines 93-96), so the items channel is closed before
`CoIterate` even returns.  Otherwise one producer goroutine runs the
`for i.Next()` loop; `stopAfter = some n` means the `<-stop` select
case was chosen at the n-th send (a `Stop` call pre-empting the rest),
`none` means every select chose the send case.  `defer close(out)` runs
on every exit path. -/
def CoIterate (iterator : Option (List T)) (stopAfter : Option Nat) :
    CoIterRun T :=
  match iterator with
  | none =>
      { emitted := [], itemsClosed := true, producerStarted := false }
  | some items =>
      { emitted :=
          match stopAfter with
          | none => items
          | some n => items.take n
        itemsClosed := true
        producerStarted := true }

/-- C9: `CoIterate` with a nil iterator returns a `CoIterator` whose
items channel is already closed and yields no items, and no producer
task is started — for every possible stop-signal behaviour.  (The
non-nil branch of `CoIterate` does start a producer.) -/
theorem coiterate_nil_yields_closed_stream (stopAfter : Option Nat) :
    (CoIterate (T := T) none stopAfter).emitted = [] ∧
      (CoIterate (T := T) none stopAfter).itemsClosed = true ∧
      (CoIterate (T := T) none stopAfter).producerStarted = false ∧
      (∀ items : List T,
        (CoIterate (some items) stopAfter).producerStarted = true) :=
  ⟨rfl, rfl, rfl, fun _ => rfl⟩

end Chops

namespace Graph

variable {V : Type} [DecidableEq V]

/-- `AdjacencyListDigraph` from src/graph/list.go lines 19-21.  The Go
map `adj map[V][]V` becomes an association list with unique keys; the
unordered nature of Go map iteration is recovered by quantifying over
enumerations of the keys (`roots` below). -/
structure AdjacencyListDigraph (V : Type) where
  adj : List (V × List V)

/-- The key set of the adjacency map. -/
def keys (g : AdjacencyListDigraph V) : List V :=
  g.adj.map Prod.fst

/-- `g.adj[v]`: the successor slice, nil for a missing key. -/
def adjOf (g : AdjacencyListDigraph V) (v : V) : List V :=
  (g.adj.find? (fun p => decide (p.1 = v))).elim [] Prod.snd

/-- One directed edge. -/
def Edge (g : AdjacencyListDigraph V) (u w : V) : Prop :=
  w ∈ adjOf g u

/-- A directed cycle: some vertex reaches itself in one or more steps. -/
def HasCycle (g : AdjacencyListDigraph V) : Prop :=
  ∃ v, Relation.TransGen (Edge g) v v

/-- Well-formedness guaranteed for graphs built through
`AddNode`/`AddEdge` (list.go lines 31-60): a Go map has unique keys,
and `AddEdge(from, to)` always does `AddNode(to)`, so every listed
successor is itself a key. -/
def WF (g : AdjacencyListDigraph V) : Prop :=
  (keys g).Nodup ∧ ∀ p ∈ g.adj, ∀ w ∈ p.2, w ∈ keys g

/-- The error of src/graph/list.go line 12, `ErrCycleDetected`. -/
inductive GraphErr where
  | cycleDetected
deriving DecidableEq

/-- DFS state of `TopologicalOrder` (list.go lines 324-400): `seen` is
the three-colour map (0 = not seen, 1 = on the current exploration
branch, 2 = fully explored), and `order` is the output.  The Go code
fills the pre-sized array `order[i]` right-to-left (`order[i] = v;
i--`), which builds exactly the list obtained by prepending each vertex
as it finishes; the `i == -1`/`toVisit` bookkeeping panics are internal
consistency assertions subsumed by the theorems below. -/
structure TopoState (V : Type) where
  seen : V → Nat
  order : List V

mutual

/-- The recursive `visit` closure (list.go lines 360-389).  `fuel`
bounds the recursion depth; `none` means fuel ran out (never happens
with fuel `|keys| + 1`, proved below).  `seen[v] == 1` panics with
`ErrCycleDetected`, which `TopologicalOrder` recovers into an error
return. -/
def visit (adj : V → List V) : Nat → V → TopoState V →
    Option (Except GraphErr (TopoState V))
  | 0, _, _ => none
  | Nat.succ fuel, v, s =>
    match s.seen v with
    | 1 => some (Except.error GraphErr.cycleDetected)
    | 2 => some (Except.ok s)
    | _ =>
      -- seen[v] = 1; for _, neighbour := range g.adj[v] { visit(neighbour) }
      match visitList adj fuel (adj v)
          { s with seen := Function.update s.seen v 1 } with
      | none => none
      | some (Except.error e) => some (Except.error e)
      | some (Except.ok s2) =>
          -- order[i] = v; i--; seen[v] = 2; delete(toVisit, v)
          some (Except.ok { seen := Function.update s2.seen v 2,
                            order := v :: s2.order })

/-- Sequential visits of a vertex list (the neighbour loop inside
`visit`, and also the outer `for v := range toVisit` loop: a vertex
finished earlier returns immediately, exactly like the Go map entries
deleted before the iterator reaches them). -/
def visitList (adj : V → List V) : Nat → List V → TopoState V →
    Option (Except GraphErr (TopoState V))
  | _, [], s => some (Except.ok s)
  | fuel, w :: ws, s =>
    match visit adj fuel w s with
    | none => none
    | some (Except.error e) => some (Except.error e)
    | some (Except.ok s') => visitList adj fuel ws s'

end

/-- `TopologicalOrder` (list.go lines 324-400) with the map iteration
order made explicit as `roots`.  `none` is fuel exhaustion, which
`topological_order_correct` shows cannot happen. -/
def TopologicalOrder (g : AdjacencyListDigraph V) (roots : List V) :
    Option (Except GraphErr (List V)) :=
  match visitList (adjOf g) ((keys g).length + 1) roots
      { seen := fun _ => 0, order := [] } with
  | none => none
  | some (Except.error e) => some (Except.error e)
  | some (Except.ok s) => some (Except.ok s.order)

/-- Colour bookkeeping of a successful visit: the set of on-stack
vertices is unchanged, finished vertices stay finished, and no vertex
becomes unseen. -/
def ShapeOk (s s' : TopoState V) : Prop :=
  (∀ x, s.seen x = 1 ↔ s'.seen x = 1) ∧
  (∀ x, s.seen x = 2 → s'.seen x = 2) ∧
  (∀ x, s'.seen x = 0 → s.seen x = 0)

theorem ShapeOk.refl (s : TopoState V) : ShapeOk s s :=
  ⟨fun _ => Iff.rfl, fun _ h => h, fun _ h => h⟩

theorem ShapeOk.trans {s1 s2 s3 : TopoState V}
    (h1 : ShapeOk s1 s2) (h2 : ShapeOk s2 s3) : ShapeOk s1 s3 :=
  ⟨fun x => (h1.1 x).trans (h2.1 x),
   fun x h => h2.2.1 x (h1.2.1 x h),
   fun x h => h1.2.2 x (h2.2.2 x h)⟩

theorem shape_spec (adj : V → List V) : ∀ fuel,
    (∀ v s s', visit adj fuel v s = some (Except.ok s') →
      ShapeOk s s' ∧ s'.seen v = 2) ∧
    (∀ ws s s', visitList adj fuel ws s = some (Except.ok s') →
      ShapeOk s s' ∧ ∀ w ∈ ws, s'.seen w = 2) := by
  intro fuel
  induction fuel with
  | zero =>
      constructor
      · intro v s s' h
        simp [visit] at h
      · intro ws
        induction ws with
        | nil =>
            intro s s' h
            simp [visitList] at h
            subst h
            exact ⟨ShapeOk.refl s, by simp⟩
        | cons w ws ihw =>
            intro s s' h
            simp [visitList, visit] at h
  | succ fuel ih =>
      have hv : ∀ v s s', visit adj (fuel + 1) v s = some (Except.ok s') →
          ShapeOk s s' ∧ s'.seen v = 2 := by
        intro v s s' h
        rw [visit] at h
        split at h
        · simp at h
        · next hsv =>
            simp at h
            subst h
            exact ⟨ShapeOk.refl s, hsv⟩
        · next hsv1 hsv2 =>
            split at h
            · simp at h
            · simp at h
            · next s2 heq =>
                simp only [Option.some.injEq, Except.ok.injEq] at h
                subst h
                obtain ⟨hsh, hblack⟩ := ih.2 (adj v) _ _ heq
                have g1 := hsh.1
                have g2 := hsh.2.1
                have g3 := hsh.2.2
                simp only [Function.update_apply] at g1 g2 g3
                refine ⟨⟨?_, ?_, ?_⟩, by simp⟩
                · intro x
                  by_cases hx : x = v
                  · subst hx
                    simp [Function.update_apply]
                    exact hsv1
                  · have := g1 x
                    simp [hx] at this
                    simp [Function.update_apply, hx, this]
                · intro x hx2
                  by_cases hx : x = v
                  · subst hx
                    simp [Function.update_apply]
                  · have := g2 x
                    simp [hx] at this
                    simp [Function.update_apply, hx]
                    exact this hx2
                · intro x hx0
                  by_cases hx : x = v
                  · subst hx
                    simp [Function.update_apply] at hx0
                  · simp only [Function.update_apply, if_neg hx] at hx0
                    have := g3 x
                    simp [hx] at this
                    exact this hx0
      refine ⟨hv, ?_⟩
      intro ws
      induction ws with
      | nil =>
          intro s s' h
          simp [visitList] at h
          subst h
          exact ⟨ShapeOk.refl s, by simp⟩
      | cons w ws ihw =>
          intro s s' h
          rw [visitList] at h
          split at h
          · simp at h
          · simp at h
          · next smid heq =>
              obtain ⟨hsh1, hb1⟩ := hv w s smid heq
              obtain ⟨hsh2, hb2⟩ := ihw smid s' h
              refine ⟨hsh1.trans hsh2, ?_⟩
              intro u hu
              rcases List.mem_cons.mp hu with hu | hu
              · subst hu
                exact hsh2.2.1 u hb1
              · exact hb2 u hu

/-- `u` occurs in `l` and `w` occurs later. -/
def Before (l : List V) (u w : V) : Prop :=
  ∃ l1 l2, l = l1 ++ u :: l2 ∧ w ∈ l2

theorem Before.cons {l : List V} {u w v : V} (h : Before l u w) :
    Before (v :: l) u w := by
  obtain ⟨l1, l2, hl, hw⟩ := h
  exact ⟨v :: l1, l2, by rw [hl]; rfl, hw⟩

/-- The black-vertex invariant: `order` lists exactly the finished
vertices, without duplicates; every finished vertex's successors are in
`order` after it; every coloured vertex is a key. -/
def BlackInv (adj : V → List V) (ks : List V) (s : TopoState V) : Prop :=
  (∀ x, x ∈ s.order ↔ s.seen x = 2) ∧
  s.order.Nodup ∧
  (∀ u, u ∈ s.order → ∀ w ∈ adj u, Before s.order u w) ∧
  (∀ x, s.seen x ≠ 0 → x ∈ ks)

theorem black_spec (adj : V → List V) (ks : List V)
    (hclosed : ∀ u, ∀ w ∈ adj u, w ∈ ks) : ∀ fuel,
    (∀ v s s', v ∈ ks → BlackInv adj ks s →
      visit adj fuel v s = some (Except.ok s') → BlackInv adj ks s') ∧
    (∀ ws s s', (∀ w ∈ ws, w ∈ ks) → BlackInv adj ks s →
      visitList adj fuel ws s = some (Except.ok s') →
      BlackInv adj ks s') := by
  intro fuel
  induction fuel with
  | zero =>
      constructor
      · intro v s s' hv hb h
        simp [visit] at h
      · intro ws
        induction ws with
        | nil =>
            intro s s' hws hb h
            simp [visitList] at h
            subst h
            exact hb
        | cons w ws ihw =>
            intro s s' hws hb h
            simp [visitList, visit] at h
  | succ fuel ih =>
      have hv : ∀ v s s', v ∈ ks → BlackInv adj ks s →
          visit adj (fuel + 1) v s = some (Except.ok s') →
          BlackInv adj ks s' := by
        intro v s s' hv hb h
        rw [visit] at h
        split at h
        · simp at h
        · next hsv =>
            simp at h
            subst h
            exact hb
        · next hsv1 hsv2 =>
            split at h
            · simp at h
            · simp at h
            · next s2 heq =>
                simp only [Option.some.injEq, Except.ok.injEq] at h
                subst h
                obtain ⟨b1, b2, b3, b4⟩ := hb
                have hvnotin : v ∉ s.order := by
                  intro hmem
                  exact hsv2 ((b1 v).mp hmem)
                have hb1 : BlackInv adj ks
                    { seen := Function.update s.seen v 1,
                      order := s.order } := by
                  refine ⟨?_, b2, ?_, ?_⟩
                  · intro x
                    show x ∈ s.order ↔ Function.update s.seen v 1 x = 2
                    by_cases hx : x = v
                    · subst hx
                      simp [Function.update_apply, hvnotin]
                    · simp [Function.update_apply, hx]
                      exact b1 x
                  · exact b3
                  · intro x hx
                    show x ∈ ks
                    by_cases hxv : x = v
                    · subst hxv
                      exact hv
                    · refine b4 x ?_
                      simpa [Function.update_apply, hxv] using hx
                obtain ⟨b1', b2', b3', b4'⟩ :=
                  ih.2 (adj v) _ _ (hclosed v) hb1 heq
                obtain ⟨hsh, hblack⟩ := (shape_spec adj fuel).2 (adj v) _ _ heq
                have hv2gray : s2.seen v = 1 := by
                  refine (hsh.1 v).mp ?_
                  simp [Function.update_apply]
                have hvnotin2 : v ∉ s2.order := by
                  intro hmem
                  have := (b1' v).mp hmem
                  omega
                refine ⟨?_, ?_, ?_, ?_⟩
                · intro x
                  show x ∈ v :: s2.order ↔ Function.update s2.seen v 2 x = 2
                  by_cases hx : x = v
                  · subst hx
                    simp [Function.update_apply]
                  · simp [Function.update_apply, hx]
                    exact b1' x
                · exact List.nodup_cons.mpr ⟨hvnotin2, b2'⟩
                · intro u hu w hw
                  show Before (v :: s2.order) u w
                  rcases List.mem_cons.mp hu with hu | hu
                  · subst hu
                    refine ⟨[], s2.order, rfl, ?_⟩
                    exact (b1' w).mpr (hblack w hw)
                  · exact (b3' u hu w hw).cons
                · intro x hx
                  show x ∈ ks
                  by_cases hxv : x = v
                  · subst hxv
                    exact hv
                  · refine b4' x ?_
                    simpa [Function.update_apply, hxv] using hx
      refine ⟨hv, ?_⟩
      intro ws
      induction ws with
      | nil =>
          intro s s' hws hb h
          simp [visitList] at h
          subst h
          exact hb
      | cons w ws ihw =>
          intro s s' hws hb h
          rw [visitList] at h
          split at h
          · simp at h
          · simp at h
          · next smid heq =>
              exact ihw smid s' (fun u hu => hws u (by simp [hu]))
                (hv w s smid (hws w (by simp)) hb heq) h

/-- All on-stack vertices reach `v`: the precondition under which a
discovered on-stack vertex witnesses a cycle. -/
def GrayReach (adj : V → List V) (s : TopoState V) (v : V) : Prop :=
  ∀ x, s.seen x = 1 → Relation.ReflTransGen (fun a b => b ∈ adj a) x v

/-- A cycle in terms of the successor function. -/
def HasCycleAdj (adj : V → List V) : Prop :=
  ∃ v, Relation.TransGen (fun a b => b ∈ adj a) v v

theorem error_spec (adj : V → List V) : ∀ fuel,
    (∀ v s e, GrayReach adj s v →
      visit adj fuel v s = some (Except.error e) →
      HasCycleAdj adj ∨ s.seen v = 1) ∧
    (∀ ws s e v0, GrayReach adj s v0 → (∀ w ∈ ws, w ∈ adj v0) →
      visitList adj fuel ws s = some (Except.error e) →
      HasCycleAdj adj) := by
  intro fuel
  induction fuel with
  | zero =>
      constructor
      · intro v s e hgr h
        simp [visit] at h
      · intro ws
        induction ws with
        | nil =>
            intro s e v0 hgr hws h
            simp [visitList] at h
        | cons w ws ihw =>
            intro s e v0 hgr hws h
            simp [visitList, visit] at h
  | succ fuel ih =>
      have hv : ∀ v s e, GrayReach adj s v →
          visit adj (fuel + 1) v s = some (Except.error e) →
          HasCycleAdj adj ∨ s.seen v = 1 := by
        intro v s e hgr h
        rw [visit] at h
        split at h
        · next hsv => exact Or.inr hsv
        · simp at h
        · next hsv1 hsv2 =>
            split at h
            · simp at h
            · next e2 heq =>
                refine Or.inl (ih.2 (adj v) _ e2 v ?_ (fun w hw => hw) heq)
                intro x hx1
                show Relation.ReflTransGen _ x v
                by_cases hxv : x = v
                · subst hxv
                  exact Relation.ReflTransGen.refl
                · simp only [Function.update_apply, if_neg hxv] at hx1
                  exact hgr x hx1
            · simp at h
      refine ⟨hv, ?_⟩
      intro ws
      induction ws with
      | nil =>
          intro s e v0 hgr hws h
          simp [visitList] at h
      | cons w ws ihw =>
          intro s e v0 hgr hws h
          rw [visitList] at h
          split at h
          · simp at h
          · next e0 heq =>
              have hgrw : GrayReach adj s w := by
                intro x hx1
                exact Relation.ReflTransGen.tail (hgr x hx1)
                  (hws w (by simp))
              rcases hv w s e0 hgrw heq with hcyc | hgray
              · exact hcyc
              · refine ⟨w, Relation.TransGen.tail' (hgr w hgray)
                  (hws w (by simp))⟩
          · next smid heq =>
              have hsh := ((shape_spec adj (fuel + 1)).1 w s smid heq).1
              refine ihw smid e v0 ?_ (fun u hu => hws u (by simp [hu])) h
              intro x hx1
              exact hgr x ((hsh.1 x).mpr hx1)

/-- Every colour a visit writes is 1 or 2, so colours stay in 0..2. -/
theorem seen_le_spec (adj : V → List V) : ∀ fuel,
    (∀ v s s', visit adj fuel v s = some (Except.ok s') →
      (∀ x, s.seen x ≤ 2) → (∀ x, s'.seen x ≤ 2)) ∧
    (∀ ws s s', visitList adj fuel ws s = some (Except.ok s') →
      (∀ x, s.seen x ≤ 2) → (∀ x, s'.seen x ≤ 2)) := by
  intro fuel
  induction fuel with
  | zero =>
      constructor
      · intro v s s' h
        simp [visit] at h
      · intro ws
        induction ws with
        | nil =>
            intro s s' h hle
            simp [visitList] at h
            subst h
            exact hle
        | cons w ws ihw =>
            intro s s' h
            simp [visitList, visit] at h
  | succ fuel ih =>
      have hv : ∀ v s s', visit adj (fuel + 1) v s = some (Except.ok s') →
          (∀ x, s.seen x ≤ 2) → (∀ x, s'.seen x ≤ 2) := by
        intro v s s' h hle
        rw [visit] at h
        split at h
        · simp at h
        · simp at h
          subst h
          exact hle
        · split at h
          · simp at h
          · simp at h
          · next s2 heq =>
              simp only [Option.some.injEq, Except.ok.injEq] at h
              subst h
              have h1 : ∀ x, (Function.update s.seen v 1) x ≤ 2 := by
                intro x
                by_cases hx : x = v <;> simp [Function.update_apply, hx]
                exact hle x
              have h2 := ih.2 (adj v) _ _ heq h1
              intro x
              by_cases hx : x = v <;>
                simp [Function.update_apply, hx]
              exact h2 x
      refine ⟨hv, ?_⟩
      intro ws
      induction ws with
      | nil =>
          intro s s' h hle
          simp [visitList] at h
          subst h
          exact hle
      | cons w ws ihw =>
          intro s s' h hle
          rw [visitList] at h
          split at h
          · simp at h
          · simp at h
          · next smid heq =>
              exact ihw smid s' h (hv w s smid heq hle)

/-- Number of not-yet-seen keys: the fuel measure. -/
def unseenCount (ks : List V) (s : TopoState V) : Nat :=
  (ks.filter (fun v => decide (s.seen v = 0))).length

theorem filter_length_mono {α : Type} {p q : α → Bool} (l : List α)
    (himp : ∀ x, q x = true → p x = true) :
    (l.filter q).length ≤ (l.filter p).length := by
  induction l with
  | nil => simp
  | cons a l ihl =>
      by_cases hq : q a = true
      · rw [List.filter_cons_of_pos hq, List.filter_cons_of_pos (himp a hq)]
        simpa using ihl
      · rw [List.filter_cons_of_neg (by simpa using hq)]
        by_cases hp : p a = true
        · rw [List.filter_cons_of_pos hp]
          simp
          omega
        · rw [List.filter_cons_of_neg (by simpa using hp)]
          exact ihl

theorem filter_length_lt {α : Type} {p q : α → Bool} (l : List α)
    (himp : ∀ x, q x = true → p x = true) (v : α) (hv : v ∈ l)
    (hpv : p v = true) (hqv : q v = false) :
    (l.filter q).length < (l.filter p).length := by
  induction l with
  | nil => simp at hv
  | cons a l ihl =>
      rcases List.mem_cons.mp hv with hva | hva
      · subst hva
        rw [List.filter_cons_of_neg (by simp [hqv]),
          List.filter_cons_of_pos hpv]
        simp
        exact Nat.lt_succ_of_le (filter_length_mono l himp)
      · by_cases hq : q a = true
        · rw [List.filter_cons_of_pos hq, List.filter_cons_of_pos (himp a hq)]
          simpa using ihl hva
        · rw [List.filter_cons_of_neg (by simpa using hq)]
          by_cases hp : p a = true
          · rw [List.filter_cons_of_pos hp]
            simp
            exact Nat.lt_succ_of_le (Nat.le_of_lt (ihl hva))
          · rw [List.filter_cons_of_neg (by simpa using hp)]
            exact ihl hva

/-- With fuel exceeding the number of unseen keys, the DFS never runs
out of fuel (given colours in range and all relevant vertices keys). -/
theorem fuel_spec (adj : V → List V) (ks : List V)
    (hclosed : ∀ u, ∀ w ∈ adj u, w ∈ ks) : ∀ fuel,
    (∀ v s, v ∈ ks → (∀ x, s.seen x ≤ 2) → unseenCount ks s < fuel →
      visit adj fuel v s ≠ none) ∧
    (∀ ws s, (∀ w ∈ ws, w ∈ ks) → (∀ x, s.seen x ≤ 2) →
      unseenCount ks s < fuel → visitList adj fuel ws s ≠ none) := by
  intro fuel
  induction fuel with
  | zero =>
      constructor
      · intro v s hv hle hcnt
        omega
      · intro ws s hws hle hcnt
        omega
  | succ fuel ih =>
      have hv : ∀ v s, v ∈ ks → (∀ x, s.seen x ≤ 2) →
          unseenCount ks s < fuel + 1 → visit adj (fuel + 1) v s ≠ none := by
        intro v s hvk hle hcnt
        rw [visit]
        split
        · simp
        · simp
        · next hsv1 hsv2 =>
            have hsv0 : s.seen v = 0 := by
              have := hle v
              rcases Nat.lt_or_ge (s.seen v) 1 with h | h
              · omega
              · rcases Nat.lt_or_ge (s.seen v) 2 with h2 | h2
                · exact absurd (by omega) hsv1
                · exact absurd (by omega) hsv2
            have hdec : unseenCount ks
                { seen := Function.update s.seen v 1, order := s.order }
                < unseenCount ks s := by
              refine filter_length_lt ks ?_ v hvk (by simp [hsv0]) ?_
              · intro x hx
                simp at hx ⊢
                by_cases hxv : x = v
                · subst hxv
                  simp [Function.update_apply] at hx
                · simpa [Function.update_apply, hxv] using hx
              · simp [Function.update_apply]
            have hle1 : ∀ x,
                (Function.update s.seen v 1) x ≤ 2 := by
              intro x
              by_cases hx : x = v <;> simp [Function.update_apply, hx]
              exact hle x
            have hnn := ih.2 (adj v)
              { seen := Function.update s.seen v 1, order := s.order }
              (hclosed v) hle1 (by omega)
            intro hcontra
            split at hcontra
            · next hnone => exact hnn hnone
            · simp at hcontra
            · simp at hcontra
      refine ⟨hv, ?_⟩
      intro ws
      induction ws with
      | nil =>
          intro s hws hle hcnt
          simp [visitList]
      | cons w ws ihw =>
          intro s hws hle hcnt
          rw [visitList]
          intro hcontra
          split at hcontra
          · next hnone => exact hv w s (hws w (by simp)) hle hcnt hnone
          · simp at hcontra
          · next smid heq =>
              have hle2 := (seen_le_spec adj (fuel + 1)).1 w s smid heq hle
              have hsh := ((shape_spec adj (fuel + 1)).1 w s smid heq).1
              have hmono : unseenCount ks smid ≤ unseenCount ks s := by
                refine filter_length_mono ks ?_
                intro x hx
                simp at hx ⊢
                exact hsh.2.2 x hx
              exact ihw smid (fun u hu => hws u (by simp [hu])) hle2
                (by omega) hcontra

theorem before_index {l : List V} {u w : V} (hnd : l.Nodup)
    (h : Before l u w) : l.indexOf u < l.indexOf w := by
  obtain ⟨l1, l2, hl, hw⟩ := h
  subst hl
  induction l1 with
  | nil =>
      simp only [List.nil_append] at hnd ⊢
      rw [List.indexOf_cons_self]
      have hnd' := List.nodup_cons.mp hnd
      have huw : u ≠ w := fun he => hnd'.1 (he ▸ hw)
      rw [List.indexOf_cons_ne l2 huw]
      omega
  | cons a l1 ih =>
      simp only [List.cons_append] at hnd ⊢
      have hnd' := List.nodup_cons.mp hnd
      have hau : a ≠ u := fun he => hnd'.1 (by subst he; simp)
      have haw : a ≠ w := fun he => hnd'.1 (by subst he; simp [hw])
      rw [List.indexOf_cons_ne _ hau, List.indexOf_cons_ne _ haw]
      have := ih hnd'.2
      omega

theorem visitList_roots_error (adj : V → List V) (fuel : Nat)
    (ws : List V) (s : TopoState V) (e : GraphErr)
    (hnogray : ∀ x, s.seen x ≠ 1)
    (h : visitList adj fuel ws s = some (Except.error e)) :
    HasCycleAdj adj := by
  induction ws generalizing s with
  | nil => simp [visitList] at h
  | cons w ws ihw =>
      rw [visitList] at h
      split at h
      · simp at h
      · next e0 heq =>
          rcases (error_spec adj fuel).1 w s e0
              (fun x hx => absurd hx (hnogray x)) heq with hc | hg
          · exact hc
          · exact absurd hg (hnogray w)
      · next smid heq =>
          have hsh := ((shape_spec adj fuel).1 w s smid heq).1
          refine ihw smid ?_ h
          intro x hx
          exact hnogray x ((hsh.1 x).mpr hx)

theorem adjOf_subset_keys {g : AdjacencyListDigraph V} (hwf : WF g) :
    ∀ u, ∀ w ∈ adjOf g u, w ∈ keys g := by
  intro u w hw
  unfold adjOf at hw
  cases hfind : g.adj.find? (fun p => decide (p.1 = u)) with
  | none => rw [hfind] at hw; simp at hw
  | some p =>
      rw [hfind] at hw
      simp at hw
      exact hwf.2 p (List.mem_of_find?_eq_some hfind) w hw

theorem edge_source_mem {g : AdjacencyListDigraph V} {u w : V}
    (h : Edge g u w) : u ∈ keys g := by
  unfold Edge adjOf at h
  cases hfind : g.adj.find? (fun p => decide (p.1 = u)) with
  | none => rw [hfind] at h; simp at h
  | some p =>
      have hp := List.find?_some hfind
      have hpu : p.1 = u := by simpa using hp
      have hmem := List.mem_of_find?_eq_some hfind
      rw [← hpu]
      exact List.mem_map_of_mem Prod.fst hmem

/-- C3: `TopologicalOrder`, run with any key enumeration `roots` (Go
map iteration order), on any well-formed graph: when it returns an
order, that order contains every vertex exactly once and for every
edge (u, w) the vertex u appears before w (dependencies before
dependents); it returns the `CycleDetected` error — and thus no order —
exactly when the graph has a cycle; and the fuel bound never runs
out. -/
theorem topological_order_correct (g : AdjacencyListDigraph V)
    (roots : List V) (hwf : WF g) (hroots : roots.Perm (keys g)) :
    (∀ order, TopologicalOrder g roots = some (Except.ok order) →
      order.Perm (keys g) ∧ ∀ u w, Edge g u w → Before order u w) ∧
    (TopologicalOrder g roots = some (Except.error GraphErr.cycleDetected)
      ↔ HasCycle g) ∧
    TopologicalOrder g roots ≠ none := by
  have hclosed := adjOf_subset_keys hwf
  have hb0 : BlackInv (adjOf g) (keys g)
      { seen := fun _ => 0, order := [] } := by
    refine ⟨by simp, by simp, by simp, by simp⟩
  have hroots_sub : ∀ w ∈ roots, w ∈ keys g :=
    fun w hw => hroots.mem_iff.mp hw
  have hok : ∀ sf, visitList (adjOf g) ((keys g).length + 1) roots
      { seen := fun _ => 0, order := [] } = some (Except.ok sf) →
      sf.order.Perm (keys g) ∧
        ∀ u w, Edge g u w → Before sf.order u w := by
    intro sf hrun
    obtain ⟨b1, b2, b3, b4⟩ :=
      (black_spec (adjOf g) (keys g) hclosed _).2 roots _ sf
        hroots_sub hb0 hrun
    obtain ⟨hsh, hblacks⟩ := (shape_spec (adjOf g) _).2 roots _ sf hrun
    have hmemiff : ∀ x, x ∈ sf.order ↔ x ∈ keys g := by
      intro x
      constructor
      · intro hx
        refine b4 x ?_
        rw [(b1 x).mp hx]
        omega
      · intro hx
        exact (b1 x).mpr (hblacks x (hroots.mem_iff.mpr hx))
    refine ⟨(List.perm_ext_iff_of_nodup b2 hwf.1).mpr hmemiff, ?_⟩
    intro u w he
    exact b3 u ((hmemiff u).mpr (edge_source_mem he)) w he
  have hnn : visitList (adjOf g) ((keys g).length + 1) roots
      { seen := fun _ => 0, order := [] } ≠ none := by
    refine (fuel_spec (adjOf g) (keys g) hclosed _).2 roots _ hroots_sub
      (by intro x; simp) ?_
    show unseenCount (keys g) { seen := fun _ => 0, order := [] }
      < (keys g).length + 1
    unfold unseenCount
    have heq : (keys g).filter
        (fun v => decide (({ seen := fun _ => 0, order := [] } :
          TopoState V).seen v = 0)) = keys g := by
      refine List.filter_eq_self.mpr ?_
      intro a ha
      simp
    rw [heq]
    omega
  refine ⟨?_, ⟨?_, ?_⟩, ?_⟩
  · -- an ok result is a valid topological order
    intro order htopo
    unfold TopologicalOrder at htopo
    split at htopo
    · simp at htopo
    · simp at htopo
    · next sf hrun =>
        simp at htopo
        subst htopo
        exact hok sf hrun
  · -- error implies a cycle
    intro herr
    unfold TopologicalOrder at herr
    split at herr
    · simp at herr
    · next e hrun =>
        exact visitList_roots_error (adjOf g) _ roots _ e
          (by intro x; simp) hrun
    · simp at herr
  · -- a cycle implies the error
    intro hcyc
    cases hres : visitList (adjOf g) ((keys g).length + 1) roots
        { seen := fun _ => 0, order := [] } with
    | none => exact absurd hres hnn
    | some r =>
        cases r with
        | error e =>
            cases e
            unfold TopologicalOrder
            rw [hres]
        | ok sf =>
            exfalso
            obtain ⟨hperm, hbef⟩ := hok sf hres
            have hnd : sf.order.Nodup := (hperm.nodup_iff).mpr hwf.1
            obtain ⟨v, htg⟩ := hcyc
            have hidx : ∀ a b, Relation.TransGen (Edge g) a b →
                sf.order.indexOf a < sf.order.indexOf b := by
              intro a b htg2
              induction htg2 with
              | single h1 => exact before_index hnd (hbef _ _ h1)
              | tail h1 h2 ih =>
                  exact Nat.lt_trans ih (before_index hnd (hbef _ _ h2))
            exact absurd (hidx v v htg) (by omega)
  · -- fuel never runs out
    intro hnone
    unfold TopologicalOrder at hnone
    split at hnone
    · next hrun => exact hnn hrun
    · simp at hnone
    · simp at hnone

/-- Witness for `topological_order_correct`: the two-vertex graph with
the single edge 0 → 1. -/
theorem topological_order_correct_witness :
    (∀ order, TopologicalOrder (AdjacencyListDigraph.mk
          [(0, [1]), (1, [])]) [0, 1] = some (Except.ok order) →
      order.Perm (keys (AdjacencyListDigraph.mk
          [(0, [1]), (1, ([] : List Nat))])) ∧
      ∀ u w, Edge (AdjacencyListDigraph.mk [(0, [1]), (1, [])]) u w →
        Before order u w) ∧
    (TopologicalOrder (AdjacencyListDigraph.mk [(0, [1]), (1, [])])
        [0, 1] = some (Except.error GraphErr.cycleDetected)
      ↔ HasCycle (AdjacencyListDigraph.mk [(0, [1]), (1, [])])) ∧
    TopologicalOrder (AdjacencyListDigraph.mk
        [(0, [1]), (1, ([] : List Nat))]) [0, 1] ≠ none :=
  topological_order_correct (AdjacencyListDigraph.mk [(0, [1]), (1, [])])
    [0, 1] (by constructor <;> decide) (by decide)

end Graph

namespace Laminar

/-!
Operational model of the laminar task-DAG runner, src/unnamed/part_029
(`Group.Start`, `Group.starter`, the worker closure passed to `eg.Go`,
and `Group.Wait`).

Tasks are identified by `Nat`.  `order` is the topological order the
starter walks; `deps` is each task's `waitFor` list (its predecessors,
appended by the starter before the task is launched); `fnRes` is the
error each task's `f` would return (`none` = nil).  The `errgroup` is
modelled by `firstErr` (the error recorded by `errOnce`, which also
cancels the group context) and `cancelled` (the group context's Done
state; also set by cancellation of the parent context, the
`parentCancel` step).  `egCtx.Err()` is abstracted as the single value
`ctxErr`.  `SetLimit` only delays launches, so it does not change the
final state and is not modelled.
-/

/-- The value of `egCtx.Err()` after cancellation. -/
def ctxErr : String := "context canceled"

structure GroupParams where
  order : List Nat
  deps : Nat → List Nat
  names : Nat → String
  fnRes : Nat → Option String

structure GState where
  /-- Tasks `order[0..launched)` have been submitted with `eg.Go`. -/
  launched : Nat
  /-- The starter goroutine has returned (`starterWg.Done`). -/
  starterDone : Bool
  /-- `g.savedCtxErr`. -/
  saved : Option String
  /-- The group context has been cancelled. -/
  cancelled : Bool
  /-- The first error recorded by the errgroup's `errOnce`. -/
  firstErr : Option String
  /-- Tasks whose worker goroutine has returned (their `wg.Done` ran). -/
  finished : List Nat

def GState.init : GState :=
  { launched := 0, starterDone := false, saved := none,
    cancelled := false, firstErr := none, finished := [] }

/-- `errOnce.Do`: record the first non-nil worker return value and
cancel the group context. -/
def record (s : GState) (res : Option String) : GState :=
  match res, s.firstErr with
  | some e, none => { s with firstErr := some e, cancelled := true }
  | _, _ => s

/-- One scheduler step of the group.  Worker steps follow the closure
in part_029 lines 509-531: a worker blocked in the dependency-wait
select may return `egCtx.Err()` once the context is cancelled (only if
it has dependencies to wait for); once every dependency's goroutine has
returned (their deferred `wg.Done`), it runs `f` and wraps a non-nil
error as `name: err`. -/
inductive LStep (p : GroupParams) : GState → GState → Prop where
  | launchNext (s : GState) (h1 : s.starterDone = false)
      (h2 : s.launched < p.order.length) (h3 : s.cancelled = false) :
      LStep p s { s with launched := s.launched + 1 }
  | starterPreempt (s : GState) (h1 : s.starterDone = false)
      (h2 : s.launched < p.order.length) (h3 : s.cancelled = true) :
      LStep p s { s with starterDone := true, saved := some ctxErr }
  | starterFinish (s : GState) (h1 : s.starterDone = false)
      (h2 : s.launched = p.order.length) :
      LStep p s { s with starterDone := true }
  | parentCancel (s : GState) :
      LStep p s { s with cancelled := true }
  | workerCtx (s : GState) (t : Nat)
      (h1 : t ∈ p.order.take s.launched) (h2 : t ∉ s.finished)
      (h3 : s.cancelled = true) (h4 : p.deps t ≠ []) :
      LStep p s (record { s with finished := t :: s.finished }
        (some ctxErr))
  | workerRun (s : GState) (t : Nat)
      (h1 : t ∈ p.order.take s.launched) (h2 : t ∉ s.finished)
      (h3 : ∀ d ∈ p.deps t, d ∈ s.finished) :
      LStep p s (record { s with finished := t :: s.finished }
        ((p.fnRes t).map (fun e => p.names t ++ ": " ++ e)))

def Reachable (p : GroupParams) (s : GState) : Prop :=
  Relation.ReflTransGen (LStep p) GState.init s

/-- `Wait` may return: the starter has exited and every launched
worker goroutine has returned. -/
def Final (p : GroupParams) (s : GState) : Prop :=
  s.starterDone = true ∧ ∀ t ∈ p.order.take s.launched, t ∈ s.finished

/-- `Group.Wait` (part_029 lines 539-548): `err := g.eg.Wait()` is the
first recorded error; when nil, the saved context error is returned
instead. -/
def waitResult (s : GState) : Option String :=
  match s.firstErr with
  | some e => some e
  | none => s.saved

/-- What the pool can record: either the abstract context error or a
wrapped task error; the saved error is only ever the context error and
only set by the pre-empted starter. -/
def ErrInv (p : GroupParams) (s : GState) : Prop :=
  (s.saved = none ∨ s.saved = some ctxErr) ∧
  (s.firstErr = none ∨ s.firstErr = some ctxErr ∨
    ∃ t inner, p.fnRes t = some inner ∧
      s.firstErr = some (p.names t ++ ": " ++ inner)) ∧
  (s.saved ≠ none → s.starterDone = true)

theorem reachable_err_inv {p : GroupParams} {s : GState}
    (h : Reachable p s) : ErrInv p s := by
  induction h with
  | refl => exact ⟨Or.inl rfl, Or.inl rfl, by simp [GState.init]⟩
  | @tail sb sc hr hstep ih =>
      obtain ⟨i1, i2, i3⟩ := ih
      cases hstep with
      | launchNext h1 h2 h3 => exact ⟨i1, i2, i3⟩
      | starterPreempt h1 h2 h3 =>
          exact ⟨Or.inr rfl, i2, fun _ => rfl⟩
      | starterFinish h1 h2 => exact ⟨i1, i2, fun _ => rfl⟩
      | parentCancel => exact ⟨i1, i2, i3⟩
      | workerCtx t h1 h2 h3 h4 =>
          unfold record
          cases hfe : sb.firstErr with
          | none =>
              simp only [hfe]
              exact ⟨i1, Or.inr (Or.inl rfl), i3⟩
          | some e =>
              simp only [hfe]
              exact ⟨i1, by rw [← hfe]; exact i2, i3⟩
      | workerRun t h1 h2 h3 =>
          unfold record
          cases hres : (p.fnRes t).map (fun e => p.names t ++ ": " ++ e) with
          | none =>
              simp only [hres]
              exact ⟨i1, i2, i3⟩
          | some e =>
              cases hfe : sb.firstErr with
              | none =>
                  simp only [hres, hfe]
                  refine ⟨i1, Or.inr (Or.inr ?_), i3⟩
                  obtain ⟨inner, hinner, he⟩ := Option.map_eq_some'.mp hres
                  exact ⟨t, inner, hinner, by rw [← he]⟩
              | some e0 =>
                  simp only [hres, hfe]
                  exact ⟨i1, by rw [← hfe]; exact i2, i3⟩

/-- C5 counterexample trace parameters: two tasks, `1` depending on
`0`, both task functions returning nil. -/
def cexParams : GroupParams :=
  { order := [0, 1]
    deps := fun t => if t = 1 then [0] else []
    names := fun _ => "t"
    fnRes := fun _ => none }

/-- C5 counterexample: the claim says that when no task function
returned an error and the starter was not pre-empted, `Wait` returns
nil.  In this reachable complete run of `cexParams` (launch both tasks,
run task 0, cancel the parent context while task 1 is blocked on its
dependency wait, task 1 returns `egCtx.Err()` into the pool), no task
fn errored and `savedCtxErr` was never set, yet `Wait` returns the
context error recorded by worker 1 — not nil. -/
theorem wait_nil_claim_false :
    Reachable cexParams
      { launched := 2, starterDone := true, saved := none,
        cancelled := true, firstErr := some ctxErr,
        finished := [1, 0] } ∧
    Final cexParams
      { launched := 2, starterDone := true, saved := none,
        cancelled := true, firstErr := some ctxErr,
        finished := [1, 0] } ∧
    (∀ t, cexParams.fnRes t = none) ∧
    waitResult
      { launched := 2, starterDone := true, saved := none,
        cancelled := true, firstErr := some ctxErr,
        finished := [1, 0] } ≠ none := by
  refine ⟨?_, ⟨rfl, by decide⟩, fun _ => rfl, by simp [waitResult]⟩
  have s1 : LStep cexParams (GState.mk 0 false none false none [])
      (GState.mk 1 false none false none []) :=
    LStep.launchNext _ rfl (by simp [cexParams]) rfl
  have s2 : LStep cexParams (GState.mk 1 false none false none [])
      (GState.mk 2 false none false none []) :=
    LStep.launchNext _ rfl (by simp [cexParams]) rfl
  have s3 : LStep cexParams (GState.mk 2 false none false none [])
      (GState.mk 2 true none false none []) :=
    LStep.starterFinish _ rfl rfl
  have s4 : LStep cexParams (GState.mk 2 true none false none [])
      (GState.mk 2 true none false none [0]) :=
    LStep.workerRun _ 0 (by simp [cexParams]) (by simp)
      (by simp [cexParams])
  have s5 : LStep cexParams (GState.mk 2 true none false none [0])
      (GState.mk 2 true none true none [0]) :=
    LStep.parentCancel _
  have s6 : LStep cexParams (GState.mk 2 true none true none [0])
      (GState.mk 2 true none true (some ctxErr) [1, 0]) :=
    LStep.workerCtx _ 1 (by simp [cexParams]) (by simp)
      rfl (by simp [cexParams])
  show Relation.ReflTransGen (LStep cexParams)
    (GState.mk 0 false none false none [])
    (GState.mk 2 true none true (some ctxErr) [1, 0])
  exact Relation.ReflTransGen.tail
    (Relation.ReflTransGen.tail
      (Relation.ReflTransGen.tail
        (Relation.ReflTransGen.tail
          (Relation.ReflTransGen.tail
            (Relation.ReflTransGen.single s1) s2) s3) s4) s5) s6

/-- C5 amended: in every complete run, `Wait` returns the first error
recorded by the worker pool — either a task error wrapped as
`"<name>: <inner>"` or the context error observed by a worker
pre-empted during its dependency wait; if the pool recorded no error
but the starter was pre-empted by context cancellation, `Wait` returns
the saved context error; if neither happened, `Wait` returns nil. -/
theorem wait_returns_first_recorded {p : GroupParams} {s : GState}
    (hreach : Reachable p s) (hfin : Final p s) :
    (∀ e, s.firstErr = some e → waitResult s = some e ∧
      (e = ctxErr ∨ ∃ t inner, p.fnRes t = some inner ∧
        e = p.names t ++ ": " ++ inner)) ∧
    (s.firstErr = none → s.saved = some ctxErr →
      waitResult s = some ctxErr) ∧
    (s.firstErr = none → s.saved = none → waitResult s = none) ∧
    (∀ e, s.saved = some e → e = ctxErr) := by
  obtain ⟨i1, i2, i3⟩ := reachable_err_inv hreach
  refine ⟨?_, ?_, ?_, ?_⟩
  · intro e he
    refine ⟨by simp [waitResult, he], ?_⟩
    rcases i2 with h | h | ⟨t, inner, hfn, hfe⟩
    · rw [he] at h
      exact absurd h (by simp)
    · rw [he] at h
      simp at h
      exact Or.inl h
    · rw [he] at hfe
      simp at hfe
      exact Or.inr ⟨t, inner, hfn, hfe⟩
  · intro h1 h2
    simp [waitResult, h1, h2]
  · intro h1 h2
    simp [waitResult, h1, h2]
  · intro e he
    rcases i1 with h | h
    · rw [he] at h
      exact absurd h (by simp)
    · rw [he] at h
      simpa using h

/-- Witness for `wait_returns_first_recorded`: the empty group, whose
only run finishes immediately with a nil `Wait`. -/
theorem wait_returns_first_recorded_witness :
    (∀ e, (GState.mk 0 true none false none []).firstErr = some e →
      waitResult (GState.mk 0 true none false none []) = some e ∧
      (e = ctxErr ∨ ∃ t inner,
        (GroupParams.mk [] (fun _ => []) (fun _ => "") (fun _ => none)).fnRes
            t = some inner ∧
        e = (GroupParams.mk [] (fun _ => []) (fun _ => "")
            (fun _ => none)).names t ++ ": " ++ inner)) ∧
    ((GState.mk 0 true none false none []).firstErr = none →
      (GState.mk 0 true none false none []).saved = some ctxErr →
      waitResult (GState.mk 0 true none false none []) = some ctxErr) ∧
    ((GState.mk 0 true none false none []).firstErr = none →
      (GState.mk 0 true none false none []).saved = none →
      waitResult (GState.mk 0 true none false none []) = none) ∧
    (∀ e, (GState.mk 0 true none false none []).saved = some e →
      e = ctxErr) :=
  wait_returns_first_recorded
    (p := GroupParams.mk [] (fun _ => []) (fun _ => "") (fun _ => none))
    (Relation.ReflTransGen.single
      (LStep.starterFinish GState.init rfl rfl))
    ⟨rfl, by simp⟩

end Laminar

namespace Grouped

/-!
Model of the grouping batcher, src/batcher/grouped.go.

The accept goroutine is sequential: `acceptOne` routes each item to the
live sub-batcher of its key, and `m.window.Observe` may synchronously
evict keys (`enqueueForCleanup`: CAS Running → Closing and close the
sub-channel), after which the next item of that key creates a
replacement.  Which keys are evicted after which item is the sliding
window's deterministic behaviour; the model takes it as an explicit
schedule attached to each input item, which covers it.

A key's life is thus a sequence of incarnations (sub-batcher runs),
each fed a contiguous segment of that key's items.  `acceptOne` only
installs the replacement after `oldRec.wg.Wait()` and after spinning
until the old record reaches Deleted (grouped.go lines 172-188), and
`cleanup` reaches Deleted only after `evictee.wg.Wait()` (lines
232-245), i.e. after the old sub-batcher has emitted everything and
exited.  All sends of one incarnation to the shared `out` channel
therefore happen before any send of the next incarnation of the same
key, while emissions of different keys interleave arbitrarily: the
output is a `Shuffle` of the per-key batch streams. -/

variable {T K : Type} [DecidableEq K] [Inhabited T]

/-- Per-key routing state of the accept goroutine: the item segments of
evicted (fully terminated) incarnations, in creation order, and the
segment of the live incarnation, if any. -/
structure RouteState (T K : Type) where
  closedSegs : K → List (List T)
  openSeg : K → Option (List T)

def RouteState.init (T K : Type) : RouteState T K :=
  { closedSegs := fun _ => [], openSeg := fun _ => none }

/-- `grouped.acceptOne` (grouped.go lines 140-194), routing part: send
the item to the live sub-batcher of its key, creating one when the key
is new or its previous record was evicted. -/
def acceptOne (keyer : T → K) (s : RouteState T K) (item : T) :
    RouteState T K :=
  let k := keyer item
  match s.openSeg k with
  | some seg =>
      { s with openSeg := Function.update s.openSeg k (some (seg ++ [item])) }
  | none =>
      { s with openSeg := Function.update s.openSeg k (some [item]) }

/-- `grouped.enqueueForCleanup` (grouped.go lines 204-222), routing
part: the key's record leaves Running, its sub-channel is closed, so
its current segment is complete. -/
def evictKey (s : RouteState T K) (k : K) : RouteState T K :=
  match s.openSeg k with
  | some seg =>
      { s with
        closedSegs := Function.update s.closedSegs k (s.closedSegs k ++ [seg])
        openSeg := Function.update s.openSeg k none }
  | none => s

/-- The accept loop (`grouped.accept`): each input item is routed, then
the window's eviction callback may fire for some keys. -/
def runGrouped (keyer : T → K) :
    RouteState T K → List (T × List K) → RouteState T K
  | s, [] => s
  | s, (x, evs) :: rest =>
      runGrouped keyer (evs.foldl evictKey (acceptOne keyer s x)) rest

/-- All item segments of a key, in incarnation order. -/
def allSegs (s : RouteState T K) (k : K) : List (List T) :=
  s.closedSegs k ++ (s.openSeg k).toList

/-- The batches of one key's sub-batcher incarnations, in order: each
segment runs the timed batcher loop (`batch(subRec.ch, m.out,
m.subParams, false)`, grouped.go line 201) with its own timer oracle. -/
def subBatches (threshold : Nat) :
    List (List Bool) → List (List T) → List (List T)
  | _, [] => []
  | oracles, seg :: rest =>
      (Batcher.batchStep threshold false none (oracles.headD []) seg).1
        ++ subBatches threshold oracles.tail rest

theorem subBatches_flatten (threshold : Nat) (oracles : List (List Bool))
    (segs : List (List T)) :
    (subBatches threshold oracles segs).flatten = segs.flatten := by
  induction segs generalizing oracles with
  | nil => simp [subBatches]
  | cons seg rest ih =>
      simp only [subBatches, List.flatten_append, List.flatten_cons]
      rw [ih, Batcher.batchStep_join]
      simp

theorem subBatches_mem (threshold : Nat) (oracles : List (List Bool))
    (segs : List (List T)) :
    ∀ b ∈ subBatches threshold oracles segs,
      b ≠ [] ∧ ∀ x ∈ b, x ∈ segs.flatten := by
  induction segs generalizing oracles with
  | nil => simp [subBatches]
  | cons seg rest ih =>
      intro b hb
      simp only [subBatches] at hb
      rcases List.mem_append.mp hb with hb | hb
      · refine ⟨Batcher.batchStep_ne_nil _ _ _ _ _ (by simp) b hb, ?_⟩
        intro x hx
        have hxin : x ∈ (Batcher.batchStep threshold false
            (none : Option (List T)) (oracles.headD []) seg).1.flatten :=
          List.mem_flatten.mpr ⟨b, hb, hx⟩
        rw [Batcher.batchStep_join] at hxin
        simp at hxin
        simp [hxin]
      · obtain ⟨h1, h2⟩ := ih oracles.tail b hb
        refine ⟨h1, ?_⟩
        intro x hx
        have := h2 x hx
        simp at this ⊢
        exact Or.inr this

/-- Routing preserves each key's items in order: the concatenation of a
key's segments is exactly the key-k subsequence of the input. -/
theorem runGrouped_flatten (keyer : T → K) (input : List (T × List K)) :
    ∀ k, (allSegs (runGrouped keyer (RouteState.init T K) input) k).flatten
      = (input.map Prod.fst).filter (fun x => decide (keyer x = k)) := by
  suffices H : ∀ (input : List (T × List K)) (s : RouteState T K) (k : K),
      (allSegs (runGrouped keyer s input) k).flatten
        = (allSegs s k).flatten
          ++ (input.map Prod.fst).filter (fun x => decide (keyer x = k)) by
    intro k
    rw [H input (RouteState.init T K) k]
    simp [allSegs, RouteState.init]
  have haccept : ∀ (s : RouteState T K) (x : T) (k : K),
      (allSegs (acceptOne keyer s x) k).flatten
        = (allSegs s k).flatten ++ (if keyer x = k then [x] else []) := by
    intro s x k
    unfold acceptOne allSegs
    by_cases hk : keyer x = k
    · subst hk
      cases hseg : s.openSeg (keyer x) with
      | some seg =>
          simp [hseg, Function.update_apply]
      | none =>
          simp [hseg, Function.update_apply]
    · cases hseg : s.openSeg (keyer x) with
      | some seg =>
          simp [hseg, Function.update_apply, Ne.symm hk, hk]
      | none =>
          simp [hseg, Function.update_apply, Ne.symm hk, hk]
  have hevict : ∀ (s : RouteState T K) (k2 k : K),
      (allSegs (evictKey s k2) k).flatten = (allSegs s k).flatten := by
    intro s k2 k
    unfold evictKey allSegs
    cases hseg : s.openSeg k2 with
    | some seg =>
        by_cases hk : k2 = k
        · subst hk
          simp [hseg, Function.update_apply]
        · simp [hseg, Function.update_apply, Ne.symm hk, hk]
    | none => rfl
  have hevicts : ∀ (evs : List K) (s : RouteState T K) (k : K),
      (allSegs (evs.foldl evictKey s) k).flatten = (allSegs s k).flatten := by
    intro evs
    induction evs with
    | nil => intro s k; rfl
    | cons e evs ih =>
        intro s k
        simp only [List.foldl_cons]
        rw [ih, hevict]
  intro input
  induction input with
  | nil => intro s k; simp [runGrouped]
  | cons p rest ih =>
      intro s k
      obtain ⟨x, evs⟩ := p
      simp only [runGrouped]
      rw [ih, hevicts, haccept]
      by_cases hk : keyer x = k
      · simp [hk]
      · simp [hk]

/-- An interleaving of several streams: `out` is formed by repeatedly
taking the head of any stream.  This is how the sends of the per-key
batch streams merge on the shared `out` channel. -/
inductive Shuffle {α : Type} : List (List α) → List α → Prop where
  | nil (ls : List (List α)) (h : ∀ l ∈ ls, l = []) : Shuffle ls []
  | cons (ls : List (List α)) (i : Nat) (x : α) (rest : List α)
      (out : List α) (hi : i < ls.length)
      (hget : ls.get ⟨i, hi⟩ = x :: rest)
      (hrec : Shuffle (ls.set i rest) out) : Shuffle ls (x :: out)

/-- Filtering an interleaving by colour recovers each stream, when the
streams have pairwise-distinct colours. -/
theorem shuffle_filter {α C : Type} [DecidableEq C] (colorOf : α → C)
    (keyL : List C) (hnd : keyL.Nodup) :
    ∀ (ls : List (List α)) (out : List α), Shuffle ls out →
    ∀ (streamF : C → List α), ls = keyL.map streamF →
    (∀ k ∈ keyL, ∀ b ∈ streamF k, colorOf b = k) →
    ∀ k ∈ keyL, out.filter (fun b => decide (colorOf b = k)) = streamF k := by
  intro ls out hsh
  induction hsh with
  | nil ls hempty =>
      intro streamF hls hcolor k hk
      simp only [List.filter_nil]
      exact (hempty _ (hls ▸ List.mem_map_of_mem streamF hk)).symm
  | cons ls i x rest out hi hget hrec ih =>
      intro streamF hls hcolor k hk
      subst hls
      have hilen : i < keyL.length := by simpa using hi
      have hgetmap : (keyL.map streamF).get ⟨i, hi⟩
          = streamF (keyL.get ⟨i, hilen⟩) := by
        simp
      have hstreami : streamF (keyL.get ⟨i, hilen⟩) = x :: rest := by
        rw [← hgetmap, hget]
      have hsetmap : (keyL.map streamF).set i rest
          = keyL.map (Function.update streamF (keyL.get ⟨i, hilen⟩) rest) := by
        refine List.ext_getElem (by simp) ?_
        intro j hj1 hj2
        have hjlen : j < keyL.length := by simpa using hj2
        by_cases hij : j = i
        · subst hij
          simp [Function.update_apply]
        · have hkne : keyL.get ⟨j, hjlen⟩ ≠ keyL.get ⟨i, hilen⟩ := by
            intro he
            exact hij (hnd.getElem_inj_iff.mp (by simpa using he))
          rw [List.getElem_set_ne (by omega) (by simpa using hj1)]
          simp [Function.update_apply]
          rw [if_neg (fun he => hkne (by simpa using he))]
      have hcolor2 : ∀ k2 ∈ keyL, ∀ b ∈
          Function.update streamF (keyL.get ⟨i, hilen⟩) rest k2,
          colorOf b = k2 := by
        intro k2 hk2 b hb
        rw [Function.update_apply] at hb
        by_cases hk2i : k2 = keyL.get ⟨i, hilen⟩
        · rw [if_pos hk2i] at hb
          refine hcolor k2 hk2 b ?_
          rw [hk2i, hstreami]
          exact List.mem_cons_of_mem x hb
        · rw [if_neg hk2i] at hb
          exact hcolor k2 hk2 b hb
      have hx : colorOf x = keyL.get ⟨i, hilen⟩ := by
        refine hcolor _ (keyL.get_mem i hilen) x ?_
        rw [hstreami]
        exact List.mem_cons_self x rest
      have hrec2 := ih _ hsetmap hcolor2 k hk
      by_cases hkki : k = keyL.get ⟨i, hilen⟩
      · subst hkki
        rw [List.filter_cons_of_pos (by simp [hx])]
        rw [hstreami]
        rw [Function.update_apply, if_pos rfl] at hrec2
        rw [hrec2]
      · rw [List.filter_cons_of_neg (by simp [hx]; exact fun h => hkki h.symm)]
        rw [Function.update_apply, if_neg hkki] at hrec2
        exact hrec2

/-- The ordered batch stream of one key: its incarnation segments, each
run through the timed batcher. -/
def keyStream (keyer : T → K) (threshold : Nat)
    (oracleF : K → List (List Bool)) (input : List (T × List K)) (k : K) :
    List (List T) :=
  subBatches threshold (oracleF k)
    (allSegs (runGrouped keyer (RouteState.init T K) input) k)

/-- The keys of the input, each once. -/
def keyList (keyer : T → K) (input : List (T × List K)) : List K :=
  ((input.map Prod.fst).map keyer).dedup

/-- The key a batch belongs to (batches never mix keys). -/
def batchKey (keyer : T → K) (b : List T) : K :=
  keyer (b.headD default)

/-- C7: for the grouping batcher with a pure keyer, for every key the
items of that key appear in the output batches in the same order they
were received on the input — including across evictions.  `out` is any
interleaving (`Shuffle`) of the per-key batch streams; within one key
the stream is serialized across incarnations because `acceptOne` waits
for an evicted record to reach Deleted (grouped.go lines 172-188)
before feeding a replacement, and `cleanup` reaches Deleted only after
the evicted sub-batcher has fully terminated (lines 232-245).  For
every key of the input, the key's batches of `out`, concatenated in
emission order, are exactly the key's input subsequence. -/
theorem grouped_per_key_order (keyer : T → K) (threshold : Nat)
    (oracleF : K → List (List Bool)) (input : List (T × List K))
    (out : List (List T))
    (hsh : Shuffle ((keyList keyer input).map
      (keyStream keyer threshold oracleF input)) out) :
    ∀ k ∈ keyList keyer input,
      (out.filter (fun b => decide (batchKey keyer b = k))).flatten
        = (input.map Prod.fst).filter (fun x => decide (keyer x = k)) := by
  intro k hk
  have hcolor : ∀ k2 ∈ keyList keyer input,
      ∀ b ∈ keyStream keyer threshold oracleF input k2,
      batchKey keyer b = k2 := by
    intro k2 hk2 b hb
    obtain ⟨hne, hmem⟩ := subBatches_mem threshold (oracleF k2)
      (allSegs (runGrouped keyer (RouteState.init T K) input) k2) b hb
    cases hb2 : b with
    | nil => exact absurd hb2 hne
    | cons y ys =>
        have hy : y ∈ (allSegs (runGrouped keyer
            (RouteState.init T K) input) k2).flatten :=
          hmem y (by simp [hb2])
        rw [runGrouped_flatten keyer input k2] at hy
        have := List.of_mem_filter hy
        simp at this
        simpa [batchKey, hb2] using this
  have hfil := shuffle_filter (batchKey keyer) (keyList keyer input)
    (List.nodup_dedup _) _ out hsh
    (keyStream keyer threshold oracleF input) rfl hcolor k hk
  rw [hfil]
  unfold keyStream
  rw [subBatches_flatten]
  exact runGrouped_flatten keyer input k

/-- Witness for `grouped_per_key_order`: one item, key 5, threshold 2,
output the single batch `[5]`. -/
theorem grouped_per_key_order_witness :
    (([[5]] : List (List Nat)).filter
        (fun b => decide (batchKey (fun x => x) b = 5))).flatten
      = (([((5 : Nat), ([] : List Nat))].map Prod.fst).filter
          (fun x => decide ((fun y : Nat => y) x = 5))) := by
  refine grouped_per_key_order (fun x => x) 2 (fun _ => [])
    [((5 : Nat), ([] : List Nat))] [[5]] ?_ 5 (by decide)
  have hstreams : (keyList (fun x : Nat => x)
        [((5 : Nat), ([] : List Nat))]).map
      (keyStream (fun x => x) 2 (fun _ => []) [(5, [])])
      = [[[5]]] := by
    simp [keyList, keyStream, allSegs, runGrouped, acceptOne,
      RouteState.init, subBatches, Function.update_apply,
      Batcher.batchStep]
  rw [hstreams]
  refine Shuffle.cons [[[5]]] 0 [5] [] [] (by simp) (by simp) ?_
  refine Shuffle.nil _ ?_
  simp

end Grouped

end Playground
